import Mathlib

/-!
Verification development for the `vers` version-range library.

The Go sources are shallowly embedded: Go strings become `List Char`
(Go compares strings byte-wise; on the ASCII data handled here this
agrees with `Char`-wise comparison), Go `int` becomes `Int`, fallible
functions return `Option`, and `nil` pointers become `Option.none`.
Every definition mirrors the corresponding Go function; the Go name is
kept where Lean allows it and noted in a comment otherwise.
-/

namespace Vers

/-- Strings are modelled as lists of characters. -/
abbrev Str := List Char

/-- Go byte-wise string comparison `a < b` (lexicographic). -/
def goStrLt : Str → Str → Bool
  | [], [] => false
  | [], _ :: _ => true
  | _ :: _, [] => false
  | a :: as, b :: bs => if a = b then goStrLt as bs else decide (a < b)

/-- Characters accepted by Go `unicode.IsSpace` (the Unicode
White_Space property). -/
def isGoSpace (c : Char) : Bool :=
  c = ' ' ∨ c = '\t' ∨ c = '\n' ∨ c.toNat = 11 ∨ c.toNat = 12 ∨ c = '\r' ∨
  c.toNat = 0x85 ∨ c.toNat = 0xA0 ∨ c.toNat = 0x1680 ∨
  (0x2000 ≤ c.toNat ∧ c.toNat ≤ 0x200A) ∨ c.toNat = 0x2028 ∨ c.toNat = 0x2029 ∨
  c.toNat = 0x202F ∨ c.toNat = 0x205F ∨ c.toNat = 0x3000

/-- Go `strings.TrimSpace`. -/
def trimSpace (s : Str) : Str :=
  ((s.dropWhile isGoSpace).reverse.dropWhile isGoSpace).reverse

/-- Go `strings.Split` with a one-character separator.  Always returns at
least one part; adjacent separators yield empty parts. -/
def goSplit (sep : Char) : Str → List Str
  | [] => [[]]
  | c :: cs =>
    if c = sep then [] :: goSplit sep cs
    else
      match goSplit sep cs with
      | r :: rs => (c :: r) :: rs
      | [] => [[c]]

/-- Go `strings.SplitN(s, sep, 2)` with a one-character separator: the part
before the first separator, and (when the separator occurs) the remainder. -/
def splitOnce (sep : Char) : Str → Str × Option Str
  | [] => ([], none)
  | c :: cs =>
    if c = sep then ([], some cs)
    else
      let r := splitOnce sep cs
      (c :: r.1, r.2)

/-- Go `strings.Split` with a (non-empty) multi-character separator. -/
def splitOnL (sep : Str) : Str → List Str
  | [] => [[]]
  | c :: cs =>
    if List.isPrefixOf sep (c :: cs) ∧ sep ≠ [] then
      [] :: splitOnL sep (List.drop (sep.length - 1) cs)
    else
      match splitOnL sep cs with
      | r :: rs => (c :: r) :: rs
      | [] => [[c]]
termination_by s => s.length
decreasing_by
  · simp [List.length_drop]; omega
  · simp

/-- Go `strings.SplitN(s, sep, 2)` with a multi-character separator. -/
def splitOnceL (sep : Str) : Str → Str × Option Str
  | [] => ([], none)
  | c :: cs =>
    if List.isPrefixOf sep (c :: cs) ∧ sep ≠ [] then
      ([], some (List.drop (sep.length - 1) cs))
    else
      let r := splitOnceL sep cs
      (c :: r.1, r.2)

/-- Go `strings.Contains(s, sub)` for a multi-character pattern. -/
def containsL (sub : Str) : Str → Bool
  | [] => sub = []
  | c :: cs => List.isPrefixOf sub (c :: cs) ∨ containsL sub cs

/-- Go `strings.TrimSuffix`. -/
def trimSuffixL (suffix s : Str) : Str :=
  if List.isSuffixOf suffix s ∧ suffix ≠ [] then s.take (s.length - suffix.length)
  else s

/-- Go `strings.Replace(s, pat, repl, 1)` (first occurrence only). -/
def replaceOnceL (pat repl : Str) (s : Str) : Str :=
  match splitOnceL pat s with
  | (a, some b) => a ++ repl ++ b
  | (a, none) => a

/-- Go `strings.ReplaceAll`. -/
def replaceAllL (pat repl : Str) (s : Str) : Str :=
  List.intercalate repl (splitOnL pat s)

/-- Decimal digit character for a value below ten. -/
def digitChar (m : Nat) : Char := Char.ofNat ('0'.toNat + m)

/-- Decimal digits of a positive natural number (empty for zero). -/
def natDigits (n : Nat) : Str :=
  if n = 0 then [] else natDigits (n / 10) ++ [digitChar (n % 10)]
decreasing_by exact Nat.div_lt_self (Nat.pos_of_ne_zero (by assumption)) (by omega)

/-- Decimal rendering of a natural number. -/
def natToStr (n : Nat) : Str := if n = 0 then ['0'] else natDigits n

/-- Go `fmt.Sprintf("%d", i)` for an `int`. -/
def intToStr (i : Int) : Str :=
  if i < 0 then '-' :: natToStr i.natAbs else natToStr i.toNat

/-- Numeric value of a digit character. -/
def digitVal (c : Char) : Nat := c.toNat - '0'.toNat

/-- Parses a non-empty all-digit string into a natural number. -/
def parseDigits (s : Str) : Option Nat :=
  if s ≠ [] ∧ s.all Char.isDigit then
    some (s.foldl (fun acc c => acc * 10 + digitVal c) 0)
  else none

/-- Go `strconv.Atoi` (an optional sign followed by digits; overflow is out
of scope, so the result is an unbounded `Int`). -/
def atoiQ : Str → Option Int
  | [] => none
  | '+' :: rest => (parseDigits rest).map (fun n => (n : Int))
  | '-' :: rest => (parseDigits rest).map (fun n => -(n : Int))
  | s => (parseDigits s).map (fun n => (n : Int))

/-- Go `x, _ := strconv.Atoi(s)`: the parsed value, or zero on error. -/
def atoi (s : Str) : Int := (atoiQ s).getD 0

/-- Go struct `VersionInfo` (version.go). -/
structure VersionInfo where
  major : Int
  minor : Int
  patch : Int
  prerelease : Str
  build : Str
  original : Str
deriving DecidableEq

/-- Matcher for `SemanticVersionRegex`
`^(\d+)(?:\.(\d+))?(?:\.(\d+))?(?:-([^+]+))?(?:\+(.+))?$` returning the five
capture groups (empty list = group absent, as in Go where an unmatched
group yields `""`).  Go's `.` does not match a newline and `$` anchors at
the end of the text. -/
def semverMatch (s : Str) : Option (Str × Str × Str × Str × Str) :=
  let d1 := s.takeWhile Char.isDigit
  let r1 := s.dropWhile Char.isDigit
  if d1 = [] then none else
  let p2 :=
    match r1 with
    | '.' :: t =>
      let d := t.takeWhile Char.isDigit
      if d = [] then (([] : Str), r1) else (d, t.dropWhile Char.isDigit)
    | _ => (([] : Str), r1)
  let p3 :=
    match p2.2 with
    | '.' :: t =>
      let d := t.takeWhile Char.isDigit
      if d = [] then (([] : Str), p2.2) else (d, t.dropWhile Char.isDigit)
    | _ => (([] : Str), p2.2)
  let p4 :=
    match p3.2 with
    | '-' :: t =>
      let p := t.takeWhile (fun c => c ≠ '+')
      if p = [] then (([] : Str), p3.2) else (p, t.dropWhile (fun c => c ≠ '+'))
    | _ => (([] : Str), p3.2)
  let p5 :=
    match p4.2 with
    | '+' :: t =>
      if t ≠ [] ∧ ¬ t.contains '\n' then (t, ([] : Str)) else (([] : Str), p4.2)
    | _ => (([] : Str), p4.2)
  if p5.2 = [] then some (d1, p2.1, p3.1, p4.1, p5.1) else none

/-- Go `ParseVersion` (version.go).  The memoization cache is a pure
performance aid and is not modelled. -/
def ParseVersion (s : Str) : Option VersionInfo :=
  if s = [] then none
  else if s.all Char.isDigit then
    -- simpleNumericRegex ^\d+$
    some { major := atoi s, minor := 0, patch := 0, prerelease := [], build := [], original := s }
  else
    match semverMatch s with
    | some (d1, d2, d3, pre, bld) =>
      some { major := atoi d1
             minor := if d2 ≠ [] then atoi d2 else 0
             patch := if d3 ≠ [] then atoi d3 else 0
             prerelease := pre, build := bld, original := s }
    | none =>
      if s.contains '.' then
        let parts := goSplit '.' s
        let major := atoi (parts.getD 0 [])
        let minor :=
          if 2 ≤ parts.length ∧ ¬ (parts.getD 1 []).contains '-' then atoi (parts.getD 1 [])
          else 0
        let pp :=
          if 3 ≤ parts.length then
            let part2 := parts.getD 2 []
            if part2.contains '-' then
              match splitOnce '-' part2 with
              | (before, some after) => (atoi before, after)
              | (before, none) => (atoi before, ([] : Str))
            else (atoi part2, ([] : Str))
          else ((0 : Int), ([] : Str))
        let pre :=
          if 3 < parts.length ∧ pp.2 = [] then List.intercalate ['.'] (parts.drop 3)
          else pp.2
        some { major := major, minor := minor, patch := pp.1
               prerelease := pre, build := [], original := s }
      else if s.contains '-' then
        match splitOnce '-' s with
        | (before, some after) =>
          some { major := atoi before, minor := 0, patch := 0
                 prerelease := after, build := [], original := s }
        | (_, none) => none
      else none

/-- Loop body of Go `comparePrerelease`: dot-separated segments, numeric
when both sides parse as integers, else byte-wise string comparison; a
missing segment (empty string) is less than any present one. -/
def cmpPreSegs : List Str → List Str → Int
  | [], [] => 0
  | a :: _, [] =>
    if a = [] then -1 else 1
  | [], _ :: _ => -1
  | a :: as, b :: bs =>
    if a = [] then -1
    else if b = [] then 1
    else
      match atoiQ a, atoiQ b with
      | some na, some nb =>
        if na < nb then -1 else if na > nb then 1 else cmpPreSegs as bs
      | _, _ =>
        if goStrLt a b then -1 else if goStrLt b a then 1 else cmpPreSegs as bs

/-- Go `comparePrerelease` (version.go). -/
def comparePrerelease (a b : Str) : Int :=
  cmpPreSegs (goSplit '.' a) (goSplit '.' b)

/-- Go method `VersionInfo.Compare` (version.go). -/
def VersionInfo.compare (v other : VersionInfo) : Int :=
  if v.major < other.major then -1
  else if v.major > other.major then 1
  else if v.minor < other.minor then -1
  else if v.minor > other.minor then 1
  else if v.patch < other.patch then -1
  else if v.patch > other.patch then 1
  else if v.prerelease = [] ∧ other.prerelease ≠ [] then 1
  else if v.prerelease ≠ [] ∧ other.prerelease = [] then -1
  else if v.prerelease = [] ∧ other.prerelease = [] then 0
  else comparePrerelease v.prerelease other.prerelease

/-- Go `CompareVersions` (version.go). -/
def CompareVersions (a b : Str) : Int :=
  if a = b then 0
  else if a = [] then -1
  else if b = [] then 1
  else
    match ParseVersion a, ParseVersion b with
    | none, none => if goStrLt a b then -1 else 1
    | none, some _ => -1
    | some _, none => 1
    | some va, some vb => va.compare vb

/-- Go struct `nugetVersion` (version.go). -/
structure NugetVersion where
  numeric : Int × Int × Int × Int
  prerelease : Str
deriving DecidableEq

/-- Go `parseNuGetVersion` (version.go). -/
def parseNuGetVersion (s : Str) : NugetVersion :=
  let s1 := (splitOnce '+' s).1
  let pp := splitOnce '-' s1
  let pre := match pp.2 with
    | some rest => rest
    | none => []
  let parts := goSplit '.' pp.1
  { numeric := (atoi (parts.getD 0 []),
                if 2 ≤ parts.length then atoi (parts.getD 1 []) else 0,
                if 3 ≤ parts.length then atoi (parts.getD 2 []) else 0,
                if 4 ≤ parts.length then atoi (parts.getD 3 []) else 0)
    prerelease := pre }

/-- Loop body of Go `compareNuGetPrerelease`: like the generic prerelease
rule but case-insensitive (both sides are lowercased before splitting). -/
def cmpNugetSegs : List Str → List Str → Int
  | [], [] => 0
  | a :: _, [] => if a = [] then -1 else 1
  | [], _ :: _ => -1
  | a :: as, b :: bs =>
    if a = [] then -1
    else if b = [] then 1
    else
      match atoiQ a, atoiQ b with
      | some na, some nb =>
        if na < nb then -1 else if na > nb then 1 else cmpNugetSegs as bs
      | _, _ =>
        if goStrLt a b then -1 else if goStrLt b a then 1 else cmpNugetSegs as bs

/-- Go `compareNuGetPrerelease` (version.go). -/
def compareNuGetPrerelease (a b : Str) : Int :=
  cmpNugetSegs (goSplit '.' (a.map Char.toLower)) (goSplit '.' (b.map Char.toLower))

/-- Go `compareNuGet` (version.go): four numeric components, then the
no-prerelease-beats-prerelease rule, then case-insensitive prerelease
segments. -/
def compareNuGet (a b : Str) : Int :=
  let pa := parseNuGetVersion a
  let pb := parseNuGetVersion b
  if pa.numeric.1 < pb.numeric.1 then -1
  else if pa.numeric.1 > pb.numeric.1 then 1
  else if pa.numeric.2.1 < pb.numeric.2.1 then -1
  else if pa.numeric.2.1 > pb.numeric.2.1 then 1
  else if pa.numeric.2.2.1 < pb.numeric.2.2.1 then -1
  else if pa.numeric.2.2.1 > pb.numeric.2.2.1 then 1
  else if pa.numeric.2.2.2 < pb.numeric.2.2.2 then -1
  else if pa.numeric.2.2.2 > pb.numeric.2.2.2 then 1
  else if pa.prerelease = [] ∧ pb.prerelease ≠ [] then 1
  else if pa.prerelease ≠ [] ∧ pb.prerelease = [] then -1
  else if pa.prerelease = [] ∧ pb.prerelease = [] then 0
  else compareNuGetPrerelease pa.prerelease pb.prerelease

/-- Go struct `mavenComponent` (version.go). -/
structure MavenComponent where
  isNumeric : Bool := false
  numeric : Int := 0
  qualifier : Str := []
  isNull : Bool := false
  afterDash : Bool := false
deriving DecidableEq

/-- The direct (non-sublist) numeric-zero component produced by a
trailing `.0` token. -/
def zeroMavenComponent : MavenComponent :=
  { isNumeric := true, numeric := 0, afterDash := false }

/-- Go map `mavenQualifierOrder` (version.go):
alpha < beta < milestone < rc < snapshot < "" (release) < sp. -/
def mavenQualifierOrder (q : Str) : Option Int :=
  if q = ('a' :: ('l' :: ('p' :: ('h' :: ['a'])))) then some 1
  else if q = ['b', 'e', 't', 'a'] then some 2
  else if q = ['m', 'i', 'l', 'e', 's', 't', 'o', 'n', 'e'] then some 3
  else if q = ['r', 'c'] then some 4
  else if q = ['s', 'n', 'a', 'p', 's', 'h', 'o', 't'] then some 5
  else if q = [] then some 6
  else if q = ['s', 'p'] then some 7
  else none

/-- Go `getMavenQualifierOrder` (version.go): table lookup of the
lowercased qualifier; unknown qualifiers get slot 8 (before numbers). -/
def getMavenQualifierOrder (q : Str) : Int × Bool :=
  match mavenQualifierOrder (q.map Char.toLower) with
  | some order => (order, true)
  | none => (8, false)

/-- Go `compareMavenToNull` (version.go): a component against a missing
component.  The `flip` parameter is unused in the Go source as well. -/
def compareMavenToNull (comp : MavenComponent) (_flip : Bool) : Int :=
  if comp.afterDash then
    if comp.isNumeric then
      if comp.numeric = 0 then 0 else if comp.numeric > 0 then 1 else -1
    else
      let orderComp := (getMavenQualifierOrder comp.qualifier).1
      let orderNull : Int := 6
      if orderComp < orderNull then -1 else if orderComp > orderNull then 1 else 0
  else
    if comp.isNumeric then
      if comp.numeric = 0 then 0 else 1
    else
      let orderComp := (getMavenQualifierOrder comp.qualifier).1
      let orderNull : Int := 6
      if orderComp < orderNull then -1 else if orderComp > orderNull then 1 else 0

/-- Go `compareMavenComponentsNew` (version.go). -/
def compareMavenComponentsNew (a b : MavenComponent) : Int :=
  if a.isNull ∧ b.isNull then 0
  else if a.isNull then compareMavenToNull b true * -1
  else if b.isNull then compareMavenToNull a false
  else if a.afterDash ≠ b.afterDash then
    if a.afterDash then
      if b.isNumeric then -1 else 1
    else
      if a.isNumeric then 1 else -1
  else if a.isNumeric ∧ b.isNumeric then
    if a.numeric < b.numeric then -1 else if a.numeric > b.numeric then 1 else 0
  else if a.isNumeric ∧ ¬ b.isNumeric then 1
  else if ¬ a.isNumeric ∧ b.isNumeric then -1
  else
    let oa := getMavenQualifierOrder a.qualifier
    let ob := getMavenQualifierOrder b.qualifier
    if oa.1 ≠ ob.1 then
      if oa.1 < ob.1 then -1 else 1
    else if ¬ oa.2 ∧ ¬ ob.2 then
      if goStrLt a.qualifier b.qualifier then -1
      else if goStrLt b.qualifier a.qualifier then 1
      else 0
    else 0

/-- Character loop of Go `splitMavenVersionWithSeparators` (version.go).
The two parallel result slices (parts and after-dash flags), which the Go
code always appends to in lockstep, are combined into one list of pairs.
State: the current token accumulator (reversed), whether the previous
character was a digit, whether we are at the first character of a token,
and whether the current token is in sublist (after-dash) context. -/
def mavenSplitLoop : Str → Str → Bool → Bool → Bool → List (Str × Bool)
  | [], current, _, _, curAD =>
    if current ≠ [] then [(current.reverse, curAD)] else []
  | c :: cs, current, lastWasDigit, firstChar, curAD =>
    if c = '.' ∨ c = '-' then
      -- a separator flushes the token; '-' opens sublist context, '.' closes it
      (if current ≠ [] then [(current.reverse, curAD)] else []) ++
        mavenSplitLoop cs [] lastWasDigit true (c = '-')
    else
      let isDigit := c.isDigit
      if firstChar = false ∧ isDigit ≠ lastWasDigit ∧ current ≠ [] then
        -- a digit/letter transition flushes the token and opens sublist context
        (current.reverse, curAD) :: mavenSplitLoop cs [c] isDigit false true
      else
        mavenSplitLoop cs (c :: current) isDigit false curAD

/-- Go `splitMavenVersionWithSeparators` (version.go). -/
def splitMavenVersionWithSeparators (s : Str) : List (Str × Bool) :=
  mavenSplitLoop s [] false true false

/-- Go `normalizeMavenQualifier` (version.go). -/
def normalizeMavenQualifier (q : Str) : Str :=
  if q = ['c', 'r'] then ['r', 'c']
  else if q = ['g', 'a'] ∨ q = ['f', 'i', 'n', 'a', 'l'] ∨ q = ['r', 'e', 'l', 'e', 'a', 's', 'e'] then []
  else q

/-- Go `normalizeMavenQualifierWithNext` (version.go): single-letter
`a`/`b`/`m` expand to `alpha`/`beta`/`milestone` only when the next token
is numeric. -/
def normalizeMavenQualifierWithNext (q : Str) (nextIsDigit : Bool) : Str :=
  if nextIsDigit ∧ q.length = 1 then
    if q = ['a'] then ['a', 'l', 'p', 'h', 'a']
    else if q = ['b'] then ['b', 'e', 't', 'a']
    else if q = ['m'] then ['m', 'i', 'l', 'e', 's', 't', 'o', 'n', 'e']
    else normalizeMavenQualifier q
  else normalizeMavenQualifier q

/-- Whether a component is a numeric zero (a trailing null-equivalent). -/
def isZeroNumeric (c : MavenComponent) : Bool := c.isNumeric ∧ c.numeric = 0

/-- Trims leading zero-numeric components of a reversed base portion while
keeping at least one component (the Go loop condition `baseEnd > 1`). -/
def trimBaseRev : List MavenComponent → List MavenComponent
  | [] => []
  | [x] => [x]
  | x :: xs => if isZeroNumeric x then trimBaseRev xs else x :: xs

/-- Go `normalizeMavenComponents` (version.go): trailing zero numerics are
dropped from the base portion (before the first sublist component), or
from the very end when there is no sublist at all. -/
def normalizeMavenComponents (components : List MavenComponent) : List MavenComponent :=
  if components = [] then components
  else
    match components.findIdx? (fun c => c.afterDash) with
    | some idx =>
      if 0 < idx then
        (trimBaseRev (components.take idx).reverse).reverse ++ components.drop idx
      else components
    | none => ((components.reverse).dropWhile isZeroNumeric).reverse

/-- Go's look-ahead in `parseMavenVersion`: whether the next token parses
as an integer (`strconv.Atoi` succeeds on `parts[i+1]`). -/
def nextTokenNumeric : List (Str × Bool) → Bool
  | (np, _) :: _ => (atoiQ np).isSome
  | [] => false

/-- Token loop of Go `parseMavenVersion` (version.go): skip empty parts,
normalize qualifiers (looking one token ahead for the single-letter
rule), and classify each token as numeric or qualifier. -/
def mavenComponentsOfParts : List (Str × Bool) → List MavenComponent
  | [] => []
  | (part, afterDash) :: rest =>
    if part = [] then mavenComponentsOfParts rest
    else
      let normalized := normalizeMavenQualifierWithNext part (nextTokenNumeric rest)
      if normalized = [] then mavenComponentsOfParts rest
      else
        match atoiQ normalized with
        | some num =>
          { isNumeric := true, numeric := num, afterDash := afterDash } ::
            mavenComponentsOfParts rest
        | none =>
          { qualifier := normalized, afterDash := afterDash } ::
            mavenComponentsOfParts rest

/-- Go `parseMavenVersion` (version.go).  Go lowercases with
`strings.ToLower`; the inputs of interest are ASCII, where this agrees
with `Char.toLower`. -/
def parseMavenVersion (s : Str) : List MavenComponent :=
  normalizeMavenComponents
    (mavenComponentsOfParts (splitMavenVersionWithSeparators (s.map Char.toLower)))

/-- Tail of the Go `compareMaven` loop once the left side is exhausted:
remaining right components are compared against null padding. -/
def compareNullVs : List MavenComponent → Int
  | [] => 0
  | b :: bs =>
    let c := compareMavenComponentsNew { isNull := true } b
    if c ≠ 0 then c else compareNullVs bs

/-- Tail of the Go `compareMaven` loop once the right side is exhausted:
remaining left components are compared against null padding. -/
def compareVsNull : List MavenComponent → Int
  | [] => 0
  | a :: as =>
    let c := compareMavenComponentsNew a { isNull := true }
    if c ≠ 0 then c else compareVsNull as

/-- Component loop of Go `compareMaven`: walk both lists to the longer
length, padding the shorter side with null components. -/
def compareMavenLists : List MavenComponent → List MavenComponent → Int
  | [], bs => compareNullVs bs
  | as, [] => compareVsNull as
  | a :: as, b :: bs =>
    let c := compareMavenComponentsNew a b
    if c ≠ 0 then c else compareMavenLists as bs

/-- Go `compareMaven` (version.go). -/
def compareMaven (a b : Str) : Int :=
  compareMavenLists (parseMavenVersion a) (parseMavenVersion b)

/-- Go `CompareWithScheme` (version.go). -/
def CompareWithScheme (a b scheme : Str) : Int :=
  if a = b then 0
  else if a = [] then -1
  else if b = [] then 1
  else if scheme = ['n', 'u', 'g', 'e', 't'] then compareNuGet a b
  else if scheme = ['m', 'a', 'v', 'e', 'n'] then compareMaven a b
  else CompareVersions a b

/-- Go struct `Interval` (interval.go); an empty string bound means
unbounded on that side, exactly as in the Go code. -/
structure Interval where
  min : Str
  max : Str
  minInclusive : Bool
  maxInclusive : Bool
deriving DecidableEq

/-- Go `NewInterval` (interval.go). -/
def NewInterval (min max : Str) (minInclusive maxInclusive : Bool) : Interval :=
  { min := min, max := max, minInclusive := minInclusive, maxInclusive := maxInclusive }

/-- Go `EmptyInterval` (interval.go). -/
def EmptyInterval : Interval :=
  { min := ['1'], max := ['0'], minInclusive := true, maxInclusive := true }

/-- Go `UnboundedInterval` (interval.go). -/
def UnboundedInterval : Interval :=
  { min := [], max := [], minInclusive := false, maxInclusive := false }

/-- Go `ExactInterval` (interval.go). -/
def ExactInterval (version : Str) : Interval :=
  { min := version, max := version, minInclusive := true, maxInclusive := true }

/-- Go `GreaterThanInterval` (interval.go). -/
def GreaterThanInterval (version : Str) (inclusive : Bool) : Interval :=
  { min := version, max := [], minInclusive := inclusive, maxInclusive := false }

/-- Go `LessThanInterval` (interval.go). -/
def LessThanInterval (version : Str) (inclusive : Bool) : Interval :=
  { min := [], max := version, minInclusive := false, maxInclusive := inclusive }

/-- Go method `Interval.IsEmpty` (interval.go). -/
def Interval.isEmpty (i : Interval) : Bool :=
  if i.min ≠ [] ∧ i.max ≠ [] then
    let cmp := CompareVersions i.min i.max
    if cmp > 0 then true
    else if cmp = 0 ∧ ¬ (i.minInclusive ∧ i.maxInclusive) then true
    else false
  else false

/-- Go method `Interval.IsUnbounded` (interval.go). -/
def Interval.isUnbounded (i : Interval) : Bool :=
  i.min = [] ∧ i.max = []

/-- Go method `Interval.Contains` (interval.go). -/
def Interval.contains (i : Interval) (version : Str) : Bool :=
  if i.isEmpty then false
  else if i.isUnbounded then true
  else
    let minOk :=
      if i.min ≠ [] then
        let cmp := CompareVersions version i.min
        if i.minInclusive then decide (0 ≤ cmp) else decide (0 < cmp)
      else true
    let maxOk :=
      if i.max ≠ [] then
        let cmp := CompareVersions version i.max
        if i.maxInclusive then decide (cmp ≤ 0) else decide (cmp < 0)
      else true
    minOk && maxOk

/-- Go method `Interval.Intersect` (interval.go): the larger minimum and
smaller maximum; ties take the more restrictive inclusivity; an absent
bound adopts the other side's bound. -/
def Interval.intersect (i other : Interval) : Interval :=
  if i.isEmpty ∨ other.isEmpty then EmptyInterval
  else
    let newMin : Str × Bool :=
      if i.min ≠ [] ∧ other.min ≠ [] then
        let cmp := CompareVersions i.min other.min
        if cmp > 0 then (i.min, i.minInclusive)
        else if cmp < 0 then (other.min, other.minInclusive)
        else (i.min, i.minInclusive ∧ other.minInclusive)
      else if i.min ≠ [] then (i.min, i.minInclusive)
      else if other.min ≠ [] then (other.min, other.minInclusive)
      else ([], false)
    let newMax : Str × Bool :=
      if i.max ≠ [] ∧ other.max ≠ [] then
        let cmp := CompareVersions i.max other.max
        if cmp < 0 then (i.max, i.maxInclusive)
        else if cmp > 0 then (other.max, other.maxInclusive)
        else (i.max, i.maxInclusive ∧ other.maxInclusive)
      else if i.max ≠ [] then (i.max, i.maxInclusive)
      else if other.max ≠ [] then (other.max, other.maxInclusive)
      else ([], false)
    { min := newMin.1, max := newMax.1
      minInclusive := newMin.2, maxInclusive := newMax.2 }

/-- Go method `Interval.Overlaps` (interval.go). -/
def Interval.overlaps (i other : Interval) : Bool :=
  if i.isEmpty ∨ other.isEmpty then false
  else ¬ (i.intersect other).isEmpty

/-- Go method `Interval.Adjacent` (interval.go). -/
def Interval.adjacent (i other : Interval) : Bool :=
  if i.isEmpty ∨ other.isEmpty then false
  else if i.max ≠ [] ∧ other.min ≠ [] ∧ CompareVersions i.max other.min = 0 then
    (i.maxInclusive ∧ ¬ other.minInclusive) ∨ (¬ i.maxInclusive ∧ other.minInclusive)
  else if i.min ≠ [] ∧ other.max ≠ [] ∧ CompareVersions i.min other.max = 0 then
    (i.minInclusive ∧ ¬ other.maxInclusive) ∨ (¬ i.minInclusive ∧ other.maxInclusive)
  else false

/-- Go method `Interval.Union` (interval.go): `none` models the `nil`
pointer returned when the intervals cannot be merged. -/
def Interval.union (i other : Interval) : Option Interval :=
  if i.isEmpty then some other
  else if other.isEmpty then some i
  else if ¬ i.overlaps other ∧ ¬ i.adjacent other then none
  else
    let newMin : Str × Bool :=
      if i.min = [] ∨ other.min = [] then ([], false)
      else
        let cmp := CompareVersions i.min other.min
        if cmp < 0 then (i.min, i.minInclusive)
        else if cmp > 0 then (other.min, other.minInclusive)
        else (i.min, i.minInclusive ∨ other.minInclusive)
    let newMax : Str × Bool :=
      if i.max = [] ∨ other.max = [] then ([], false)
      else
        let cmp := CompareVersions i.max other.max
        if cmp > 0 then (i.max, i.maxInclusive)
        else if cmp < 0 then (other.max, other.maxInclusive)
        else (i.max, i.maxInclusive ∨ other.maxInclusive)
    some { min := newMin.1, max := newMax.1
           minInclusive := newMin.2, maxInclusive := newMax.2 }

/-- Go struct `Range` (range.go). -/
structure Range where
  intervals : List Interval
  exclusions : List Str
deriving DecidableEq

/-- Go `NewRange` (range.go). -/
def NewRange (intervals : List Interval) : Range :=
  { intervals := intervals, exclusions := [] }

/-- Go `Unbounded` (vers.go). -/
def UnboundedR : Range := NewRange [UnboundedInterval]

/-- Go `Empty` (vers.go). -/
def EmptyR : Range := NewRange [EmptyInterval]

/-- Go `Exact` (vers.go). -/
def Exact (version : Str) : Range := NewRange [ExactInterval version]

/-- Go method `Range.Contains` (range.go): exclusions are checked first,
then membership in any interval. -/
def Range.contains (r : Range) (version : Str) : Bool :=
  if r.exclusions.any (fun exc => CompareVersions version exc = 0) then false
  else r.intervals.any (fun interval => interval.contains version)

/-- Go method `Range.IsEmpty` (range.go). -/
def Range.isEmpty (r : Range) : Bool :=
  if r.intervals = [] then true
  else r.intervals.all (fun interval => interval.isEmpty)

/-- Go method `Range.IsUnbounded` (range.go). -/
def Range.isUnbounded (r : Range) : Bool :=
  if r.exclusions ≠ [] then false
  else r.intervals.any (fun interval => interval.isUnbounded)

/-- Inner scan of Go `mergeIntervals` (range.go): try to merge the new
interval with each already-placed one, replacing in place on the first
success; `none` means no existing entry could absorb it. -/
def tryMergeInto : List Interval → Interval → Option (List Interval)
  | [], _ => none
  | existing :: rest, interval =>
    match existing.union interval with
    | some u => some (u :: rest)
    | none => (tryMergeInto rest interval).map (fun r => existing :: r)

/-- Go `mergeIntervals` (range.go). -/
def mergeIntervals (intervals : List Interval) : List Interval :=
  if intervals.length ≤ 1 then intervals
  else
    intervals.foldl
      (fun result interval =>
        if interval.isEmpty then result
        else
          match tryMergeInto result interval with
          | some r => r
          | none => result ++ [interval])
      []

/-- Go method `Range.Union` (range.go): empty operands are returned
directly; otherwise intervals are concatenated and merged and the
exclusions are the pairwise-matched common elements. -/
def Range.union (r other : Range) : Range :=
  if r.isEmpty then other
  else if other.isEmpty then r
  else
    { intervals := mergeIntervals (r.intervals ++ other.intervals)
      exclusions := r.exclusions.filter (fun e => other.exclusions.any (fun oe => e = oe)) }

/-- Go method `Range.Intersect` (range.go). -/
def Range.intersect (r other : Range) : Range :=
  if r.isEmpty ∨ other.isEmpty then { intervals := [], exclusions := [] }
  else
    let pairwise :=
      (r.intervals.map (fun i1 =>
        (other.intervals.map (fun i2 => i1.intersect i2)).filter
          (fun i => ¬ i.isEmpty))).flatten
    { intervals := mergeIntervals pairwise
      exclusions :=
        r.exclusions ++
          (other.exclusions.filter (fun e => ¬ r.exclusions.any (fun x => x = e))) }

/-- Go method `Range.Exclude` (range.go). -/
def Range.exclude (r : Range) (version : Str) : Range :=
  { intervals := r.intervals, exclusions := r.exclusions ++ [version] }

/-- Go struct `Constraint` (constraint.go). -/
structure Constraint where
  operator : Str
  version : Str
deriving DecidableEq

/-- Matcher for Go `operatorRegex` `^(!=|>=|<=|[<>=])` (constraint.go):
the matched operator and the remaining text. -/
def matchOperator (s : Str) : Option (Str × Str) :=
  if s.take 2 = ['!', '='] then some (['!', '='], s.drop 2)
  else if s.take 2 = ['>', '='] then some (['>', '='], s.drop 2)
  else if s.take 2 = ['<', '='] then some (['<', '='], s.drop 2)
  else
    match s with
    | '<' :: r => some (['<'], r)
    | '>' :: r => some (['>'], r)
    | '=' :: r => some (['='], r)
    | _ => none

/-- Go `stripVPrefix` (constraint.go). -/
def stripLeadingV (version : Str) : Str :=
  match version with
  | c :: rest => if 1 < version.length ∧ (c = 'v' ∨ c = 'V') then rest else version
  | [] => []

/-- Go `parseConstraintWithScheme` (constraint.go); `none` models the
returned error. -/
def parseConstraintWithScheme (s scheme : Str) : Option Constraint :=
  let s := trimSpace s
  if s = [] then none
  else
    let preserveVPrefix := scheme = ['g', 'o'] ∨ scheme = ['g', 'o', 'l', 'a', 'n', 'g']
    match matchOperator s with
    | some (operator, rest) =>
      let version := trimSpace rest
      if version = [] then none
      else some { operator := operator
                  version := if preserveVPrefix then version else stripLeadingV version }
    | none =>
      some { operator := ['=']
             version := if preserveVPrefix then s else stripLeadingV s }

/-- Go `ParseConstraint` (constraint.go). -/
def ParseConstraint (s : Str) : Option Constraint :=
  parseConstraintWithScheme s []

/-- Go method `Constraint.ToInterval` (constraint.go): the Bool mirrors
the Go `ok` flag (false for `!=` and unknown operators). -/
def Constraint.toInterval (c : Constraint) : Interval × Bool :=
  if c.operator = ['='] then (ExactInterval c.version, true)
  else if c.operator = ['!', '='] then ({ min := [], max := [], minInclusive := false, maxInclusive := false }, false)
  else if c.operator = ['>'] then (GreaterThanInterval c.version false, true)
  else if c.operator = ['>', '='] then (GreaterThanInterval c.version true, true)
  else if c.operator = ['<'] then (LessThanInterval c.version false, true)
  else if c.operator = ['<', '='] then (LessThanInterval c.version true, true)
  else ({ min := [], max := [], minInclusive := false, maxInclusive := false }, false)

/-- Go method `Constraint.IsExclusion` (constraint.go). -/
def Constraint.isExclusion (c : Constraint) : Bool :=
  c.operator = ['!', '=']

/-- Clause-collection loop of Go `Parser.parseConstraints` (parser.go):
split parts are trimmed, empties skipped, `!=` clauses collected as
exclusions and the rest as intervals, with errors propagated. -/
def collectClauses (scheme : Str) : List Str → Option (List Interval × List Str)
  | [] => some ([], [])
  | p :: rest =>
    let part := trimSpace p
    if part = [] then collectClauses scheme rest
    else
      match parseConstraintWithScheme part scheme with
      | none => none
      | some constraint =>
        match collectClauses scheme rest with
        | none => none
        | some (intervals, exclusions) =>
          if constraint.isExclusion then some (intervals, constraint.version :: exclusions)
          else
            let iv := constraint.toInterval
            if iv.2 then some (iv.1 :: intervals, exclusions)
            else some (intervals, exclusions)

/-- Scan loop of Go `intersectConsecutiveIntervals` (parser.go): a
lower-bound-only interval immediately followed by an upper-bound-only one
(or vice versa) is intersected when the intersection is non-empty;
otherwise the interval stands alone as a union member. -/
def icLoop : List Interval → List Interval
  | [] => []
  | [current] => [current]
  | current :: next :: rest =>
    if (current.min ≠ [] ∧ current.max = [] ∧ next.max ≠ [] ∧ next.min = []) ∨
       (current.max ≠ [] ∧ current.min = [] ∧ next.min ≠ [] ∧ next.max = []) then
      let intersection := current.intersect next
      if ¬ intersection.isEmpty then intersection :: icLoop rest
      else current :: icLoop (next :: rest)
    else current :: icLoop (next :: rest)

/-- Go `intersectConsecutiveIntervals` (parser.go); `none` models the
`nil` pointer returned for an empty interval list. -/
def intersectConsecutiveIntervals (intervals : List Interval) : Option Range :=
  match intervals with
  | [] => none
  | [_] => some (NewRange intervals)
  | _ => some (NewRange (icLoop intervals))

/-- Go `Parser.parseConstraints` (parser.go). -/
def parseConstraints (constraintsStr scheme : Str) : Option Range :=
  let parts := goSplit '|' constraintsStr
  match collectClauses scheme parts with
  | none => none
  | some (intervals, exclusions) =>
    let result :=
      match intersectConsecutiveIntervals intervals with
      | some r => r
      | none => if exclusions ≠ [] then UnboundedR else { intervals := [], exclusions := [] }
    some { result with exclusions := exclusions }

/-- Matcher for Go `versURIRegex` `^vers:([^/]+)/(.*)$` (parser.go): after
the literal `vers:` the scheme is the non-empty run up to the first `/`;
the remainder is the constraints part, which must not contain a newline
because Go's `.` does not match one and `$` anchors at the end. -/
def versURIMatch (s : Str) : Option (Str × Str) :=
  if s.take 5 = ['v', 'e', 'r', 's', ':'] then
    let rest := s.drop 5
    let scheme := rest.takeWhile (fun c => c ≠ '/')
    let remainder := rest.dropWhile (fun c => c ≠ '/')
    -- remainder is empty or starts with the first '/': the scheme must be
    -- non-empty, the '/' must exist, and the constraints after it must
    -- not contain a newline
    if scheme ≠ [] ∧ remainder.take 1 = ['/'] ∧ ¬ (remainder.drop 1).contains '\n' then
      some (scheme, remainder.drop 1)
    else none
  else none

/-- Go `Parser.Parse` (parser.go). -/
def Parse (versURI : Str) : Option Range :=
  match versURIMatch versURI with
  | none => none
  | some (scheme, constraintsStr) =>
    if constraintsStr = ['*'] ∨ constraintsStr = [] then some UnboundedR
    else parseConstraints constraintsStr scheme

/-- Go `strings.Fields`: maximal runs of non-whitespace characters. -/
def fieldsL : Str → List Str
  | [] => []
  | c :: cs =>
    if isGoSpace c then fieldsL cs
    else
      (c :: cs.takeWhile (fun x => !isGoSpace x)) ::
        fieldsL (cs.dropWhile (fun x => !isGoSpace x))
termination_by s => s.length
decreasing_by
  · simp
  · have h : (List.dropWhile (fun x => !isGoSpace x) cs).Sublist cs :=
      List.dropWhile_sublist _
    have := h.length_le
    simp; omega

/-- Go `isOperatorOnly` (parser.go). -/
def isOperatorOnly (s : Str) : Bool :=
  s = ['>', '='] ∨ s = ['<', '='] ∨ s = ['>'] ∨ s = ['<'] ∨ s = ['='] ∨ s = ['!', '=']

/-- Merge loop of Go `tokenizeNpmConstraints` (parser.go): an
operator-only token is glued to the following token. -/
def mergeOpTokens : List Str → List Str
  | [] => []
  | token :: rest =>
    if isOperatorOnly token ∧ rest ≠ [] then
      match rest with
      | next :: rest2 => (token ++ next) :: mergeOpTokens rest2
      | [] => [token]
    else token :: mergeOpTokens rest

/-- Go `tokenizeNpmConstraints` (parser.go). -/
def tokenizeNpmConstraints (s : Str) : List Str :=
  let tokens := fieldsL s
  if tokens.length ≤ 1 then tokens else mergeOpTokens tokens

/-- Go `extractOperator` (parser.go): longest-match operator detection in
the order `>=`, `<=`, `!=`, `>`, `<`, `=`. -/
def extractOperator (s : Str) : Str × Str :=
  if List.isPrefixOf ['>', '='] s then (['>', '='], s.drop 2)
  else if List.isPrefixOf ['<', '='] s then (['<', '='], s.drop 2)
  else if List.isPrefixOf ['!', '='] s then (['!', '='], s.drop 2)
  else if List.isPrefixOf ['>'] s then (['>'], s.drop 1)
  else if List.isPrefixOf ['<'] s then (['<'], s.drop 1)
  else if List.isPrefixOf ['='] s then (['='], s.drop 1)
  else ([], s)

/-- Go `Parser.parseCaretRange` (parser.go): `^X` is `[X, next breaking
boundary)`. -/
def parseCaretRange (version : Str) : Option Range :=
  match ParseVersion version with
  | none => none
  | some v =>
    let upper :=
      if v.major > 0 then intToStr (v.major + 1) ++ ['.', '0', '.', '0']
      else if v.minor > 0 then '0' :: '.' :: (intToStr (v.minor + 1) ++ ['.', '0'])
      else ['0', '.', '0', '.'] ++ intToStr (v.patch + 1)
    some (NewRange [NewInterval version upper true false])

/-- Go `Parser.parseTildeRange` (parser.go), including the two-interval
prerelease handling. -/
def parseTildeRange (version : Str) : Option Range :=
  match ParseVersion version with
  | none => none
  | some v =>
    if v.prerelease ≠ [] then
      let baseVersion := intToStr v.major ++ '.' :: intToStr v.minor ++ '.' :: intToStr v.patch
      let nextPatch := intToStr v.major ++ '.' :: intToStr v.minor ++ '.' :: intToStr (v.patch + 1)
      some (NewRange [NewInterval version baseVersion true false,
                      NewInterval baseVersion nextPatch true false])
    else
      let upper :=
        if v.minor > 0 ∨ v.patch > 0 then
          intToStr v.major ++ '.' :: intToStr (v.minor + 1) ++ ['.', '0']
        else intToStr (v.major + 1) ++ ['.', '0', '.', '0']
      some (NewRange [NewInterval version upper true false])

/-- Go `Parser.parseXRange` (parser.go). -/
def parseXRange (s : Str) : Option Range :=
  let s := trimSuffixL ['.', '*'] (trimSuffixL ['.', 'X'] (trimSuffixL ['.', 'x'] s))
  let parts := goSplit '.' s
  if parts.length = 1 then
    match ParseVersion (parts.getD 0 []) with
    | none => none
    | some v =>
      some (NewRange [NewInterval (intToStr v.major ++ ['.', '0', '.', '0'])
                        (intToStr (v.major + 1) ++ ['.', '0', '.', '0']) true false])
  else
    match ParseVersion s with
    | none => none
    | some v =>
      some (NewRange [NewInterval (intToStr v.major ++ '.' :: intToStr v.minor ++ ['.', '0'])
                        (intToStr v.major ++ '.' :: intToStr (v.minor + 1) ++ ['.', '0'])
                        true false])

/-- Go `Parser.parseNpmSingleRange` (parser.go). -/
def parseNpmSingleRange (s : Str) : Option Range :=
  match s with
  | '^' :: rest => parseCaretRange rest
  | '~' :: rest => parseTildeRange rest
  | _ =>
    if containsL [' ', '-', ' '] s then
      match splitOnceL [' ', '-', ' '] s with
      | (a, some b) =>
        some (NewRange [NewInterval (trimSpace a) (trimSpace b) true true])
      | (_, none) => none -- unreachable: guarded by the contains check
    else if List.isSuffixOf ['.', 'x'] s ∨ List.isSuffixOf ['.', 'X'] s ∨
            List.isSuffixOf ['.', '*'] s then
      let opv := extractOperator s
      if opv.1 ≠ [] then parseXRange opv.2
      else parseXRange s
    else
      match ParseConstraint s with
      | none => none
      | some constraint =>
        let iv := constraint.toInterval
        if iv.2 then some (NewRange [iv.1])
        else if constraint.isExclusion then some (UnboundedR.exclude constraint.version)
        else none

/-- Go `Parser.parseNpmRange` (parser.go).  The Go function recurses on
the parts of a `||` split, which are strictly shorter than the input;
the fuel parameter makes that termination argument explicit, and the
top-level entry point supplies more fuel than the recursion can use. -/
def parseNpmRange : Nat → Str → Option Range
  | 0, _ => none
  | fuel + 1, s0 =>
    let s := trimSpace s0
    if s = [] ∨ s = ['*'] ∨ s = ['x'] ∨ s = ['X'] then some UnboundedR
    else if containsL ['|', '|'] s then
      match (splitOnL ['|', '|'] s).foldlM
          (fun acc part =>
            (parseNpmRange fuel (trimSpace part)).map
              (fun r =>
                match acc with
                | none => some r
                | some a => some (a.union r)))
          (none : Option Range) with
      | none => none
      | some none => none -- unreachable: a split yields at least one part
      | some (some result) => some result
    else if s.contains ' ' ∧ ¬ containsL [' ', '-', ' '] s then
      match (tokenizeNpmConstraints s).foldlM
          (fun acc part =>
            (parseNpmSingleRange part).map
              (fun r =>
                match acc with
                | none => some r
                | some a => some (a.intersect r)))
          (none : Option Range) with
      | none => none
      | some none => none -- unreachable: at least one token exists
      | some (some result) => some result
    else parseNpmSingleRange s

/-- Go `Parser.parsePessimisticRange` (parser.go): `~> X` keeps X as the
inclusive lower bound; the exclusive upper bound bumps the minor when X
has at least three dot-separated segments and the major otherwise. -/
def parsePessimisticRange (version : Str) : Option Range :=
  match ParseVersion version with
  | none => none
  | some v =>
    let segments := version.count '.' + 1
    let upper :=
      if 3 ≤ segments then intToStr v.major ++ '.' :: intToStr (v.minor + 1)
      else if segments = 2 then intToStr (v.major + 1) ++ ['.', '0']
      else intToStr (v.major + 1) ++ ['.', '0']
    some (NewRange [NewInterval version upper true false])

/-- Go `Parser.parseGemRange` (parser.go); fuel as in `parseNpmRange`. -/
def parseGemRange : Nat → Str → Option Range
  | 0, _ => none
  | fuel + 1, s0 =>
    let s := trimSpace s0
    if s.take 2 = ['~', '>'] then parsePessimisticRange (trimSpace (s.drop 2))
    else if s.contains ',' then
      match (goSplit ',' s).foldlM
          (fun acc part =>
            (parseGemRange fuel (trimSpace part)).map
              (fun r =>
                match acc with
                | none => some r
                | some a => some (a.intersect r)))
          (none : Option Range) with
      | none => none
      | some none => none -- unreachable: a split yields at least one part
      | some (some result) => some result
    else parseConstraints s ['g', 'e', 'm']

/-- Go `Parser.parsePypiRange` (parser.go). -/
def parsePypiRange (s0 : Str) : Option Range :=
  let s := trimSpace s0
  if s.take 2 = ['~', '='] then parsePessimisticRange (trimSpace (s.drop 2))
  else if s.contains ',' then
    parseConstraints (List.intercalate ['|'] (goSplit ',' s)) ['p', 'y', 'p', 'i']
  else parseConstraints s ['p', 'y', 'p', 'i']

/-- Go `Parser.parseBracketRange` (parser.go).  The caller guarantees a
bracket at both ends, so the string has at least two characters; the Go
code's redundant re-blanking of empty bounds is a no-op. -/
def parseBracketRange (s : Str) : Option Range :=
  let minInclusive := s.headD ' ' = '['
  let maxInclusive := s.getLastD ' ' = ']'
  let inner := (s.drop 1).take (s.length - 2)
  match splitOnce ',' inner with
  | (single, none) => some (Exact (trimSpace single))
  | (minP, some maxP) =>
    some (NewRange [{ min := trimSpace minP, max := trimSpace maxP
                      minInclusive := minInclusive, maxInclusive := maxInclusive }])

/-- Go `Parser.parseMavenRange` (parser.go): bracket notation, else a
bare numeric-leading string as an inclusive minimum, else the generic
constraint grammar. -/
def parseMavenRange (s0 : Str) : Option Range :=
  let s := trimSpace s0
  if (s.take 1 = ['['] ∨ s.take 1 = ['(']) ∧
     (List.isSuffixOf [']'] s ∨ List.isSuffixOf [')'] s) then
    parseBracketRange s
  else
    match s with
    | c :: _ =>
      if c.isDigit then some (NewRange [GreaterThanInterval s true])
      else parseConstraints s ['m', 'a', 'v', 'e', 'n']
    | [] => parseConstraints s ['m', 'a', 'v', 'e', 'n']

/-- Go `Parser.parseNugetRange` (parser.go). -/
def parseNugetRange (s : Str) : Option Range := parseMavenRange s

/-- Go `Parser.parseGoRange` (parser.go).  Go can return a `nil` range
with a `nil` error when every comma clause is an exclusion; that outcome
is conflated with the error case here and is exercised by no claim. -/
def parseGoRange (s : Str) : Option Range :=
  if s.contains ',' then
    match (goSplit ',' s).foldlM
        (fun acc part =>
          match parseConstraintWithScheme (trimSpace part) ['g', 'o'] with
          | none => none
          | some constraint =>
            let iv := constraint.toInterval
            if iv.2 = false then some acc
            else
              match acc with
              | none => some (some (NewRange [iv.1]))
              | some a => some (some (a.intersect (NewRange [iv.1]))))
        (none : Option Range) with
    | none => none
    | some none => none
    | some (some result) => some result
  else parseConstraints s ['g', 'o']

/-- Go `Parser.parseHexConstraint` (parser.go). -/
def parseHexConstraint (s : Str) : Option Range :=
  if s.take 2 = ['~', '>'] then parsePessimisticRange (trimSpace (s.drop 2))
  else
    let normalized := replaceOnceL ['=', '='] ['='] s
    match ParseConstraint normalized with
    | none => none
    | some constraint =>
      if constraint.isExclusion then some (UnboundedR.exclude constraint.version)
      else
        let iv := constraint.toInterval
        if iv.2 then some (NewRange [iv.1]) else none

/-- Go `Parser.parseHexSingleRange` (parser.go). -/
def parseHexSingleRange (s : Str) : Option Range :=
  if containsL [' ', 'a', 'n', 'd', ' '] s then
    match (splitOnL [' ', 'a', 'n', 'd', ' '] s).foldlM
        (fun acc part =>
          (parseHexConstraint (trimSpace part)).map
            (fun r =>
              match acc with
              | none => some r
              | some a => some (a.intersect r)))
        (none : Option Range) with
    | none => none
    | some none => none -- unreachable: a split yields at least one part
    | some (some result) => some result
  else parseHexConstraint s

/-- Go `Parser.parseHexRange` (parser.go). -/
def parseHexRange (s0 : Str) : Option Range :=
  let s := trimSpace s0
  if containsL [' ', 'o', 'r', ' '] s then
    match (splitOnL [' ', 'o', 'r', ' '] s).foldlM
        (fun acc part =>
          (parseHexSingleRange (trimSpace part)).map
            (fun r =>
              match acc with
              | none => some r
              | some a => some (a.union r)))
        (none : Option Range) with
    | none => none
    | some none => none -- unreachable: a split yields at least one part
    | some (some result) => some result
  else parseHexSingleRange s

/-- Go `Parser.parseDebianRange` (parser.go). -/
def parseDebianRange (s : Str) : Option Range :=
  parseConstraints (replaceAllL ['<', '<'] ['<'] (replaceAllL ['>', '>'] ['>'] s))
    ['d', 'e', 'b']

/-- Go `Parser.parseRpmRange` (parser.go). -/
def parseRpmRange (s : Str) : Option Range :=
  parseConstraints s ['r', 'p', 'm']

/-- Go `Parser.ParseNative` (parser.go). -/
def ParseNative (constraint scheme : Str) : Option Range :=
  if scheme = ['n', 'p', 'm'] then parseNpmRange (constraint.length + 1) constraint
  else if scheme = ['g', 'e', 'm'] ∨ scheme = ['r', 'u', 'b', 'y', 'g', 'e', 'm', 's'] then
    parseGemRange (constraint.length + 1) constraint
  else if scheme = ['p', 'y', 'p', 'i'] then parsePypiRange constraint
  else if scheme = ['m', 'a', 'v', 'e', 'n'] then parseMavenRange constraint
  else if scheme = ['n', 'u', 'g', 'e', 't'] then parseNugetRange constraint
  else if scheme = ['c', 'a', 'r', 'g', 'o'] then
    parseNpmRange (constraint.length + 1) constraint
  else if scheme = ['g', 'o'] ∨ scheme = ['g', 'o', 'l', 'a', 'n', 'g'] then
    parseGoRange constraint
  else if scheme = ['h', 'e', 'x'] ∨ scheme = ['e', 'l', 'i', 'x', 'i', 'r'] then
    parseHexRange constraint
  else if scheme = ['d', 'e', 'b'] ∨ scheme = ['d', 'e', 'b', 'i', 'a', 'n'] then
    parseDebianRange constraint
  else if scheme = ['r', 'p', 'm'] then parseRpmRange constraint
  else parseConstraints constraint scheme

/-- Qualifier-only Maven component at a given sublist level. -/
def mkQual (q : Str) (ad : Bool) : MavenComponent :=
  { qualifier := q, afterDash := ad }

/-- Numeric Maven component at a given sublist level. -/
def mkNum (n : Int) (ad : Bool) : MavenComponent :=
  { isNumeric := true, numeric := n, afterDash := ad }

/-- Numeric key of a parsed version: its (major, minor, patch) triple. -/
def vkey (v : VersionInfo) : Int × Int × Int := (v.major, v.minor, v.patch)

/-- Lexicographic three-way comparison of (major, minor, patch) keys. -/
def cmp3 (a b : Int × Int × Int) : Int :=
  if a.1 < b.1 then -1
  else if a.1 > b.1 then 1
  else if a.2.1 < b.2.1 then -1
  else if a.2.1 > b.2.1 then 1
  else if a.2.2 < b.2.2 then -1
  else if a.2.2 > b.2.2 then 1
  else 0

/-- Strict lexicographic order on (major, minor, patch) keys. -/
def lt3 (a b : Int × Int × Int) : Prop :=
  a.1 < b.1 ∨ (a.1 = b.1 ∧ (a.2.1 < b.2.1 ∨ (a.2.1 = b.2.1 ∧ a.2.2 < b.2.2)))

/-- Whether a string parses as a version with no prerelease component (a
release version). -/
def isReleaseStr (s : Str) : Bool :=
  match ParseVersion s with
  | some v => v.prerelease = []
  | none => false

/-- Whether every present bound of an interval is a release version. -/
def releaseBounded (i : Interval) : Bool :=
  (i.min = [] ∨ isReleaseStr i.min) ∧ (i.max = [] ∨ isReleaseStr i.max)

/-- Numeric key of a version string: the (major, minor, patch) triple of
its parse (zero when the string does not parse). -/
def rkey (s : Str) : Int × Int × Int :=
  match ParseVersion s with
  | some v => vkey v
  | none => (0, 0, 0)

/-- The lower-bound test of `Interval.contains`, split out: the version is
at least (or strictly above) the minimum, a missing minimum passing. -/
def minOkB (min : Str) (inclusive : Bool) (version : Str) : Bool :=
  if min ≠ [] then
    let cmp := CompareVersions version min
    if inclusive then decide (0 ≤ cmp) else decide (0 < cmp)
  else true

/-- The upper-bound test of `Interval.contains`, split out. -/
def maxOkB (max : Str) (inclusive : Bool) (version : Str) : Bool :=
  if max ≠ [] then
    let cmp := CompareVersions version max
    if inclusive then decide (cmp ≤ 0) else decide (cmp < 0)
  else true

theorem goStrLt_irrefl (a : Str) : goStrLt a a = false := by
  induction a with
  | nil => rfl
  | cons c cs ih => simp [goStrLt, ih]

theorem goStrLt_asymm (a b : Str) (h : goStrLt a b = true) : goStrLt b a = false := by
  induction a generalizing b with
  | nil =>
    cases b with
    | nil => simp [goStrLt] at h
    | cons d ds => simp [goStrLt]
  | cons c cs ih =>
    cases b with
    | nil => simp [goStrLt] at h
    | cons d ds =>
      by_cases hcd : c = d
      · subst hcd
        simp only [goStrLt, if_pos rfl] at h ⊢
        exact ih ds h
      · simp only [goStrLt, if_neg hcd, decide_eq_true_eq] at h
        have hdc : ¬ d < c := lt_asymm h
        have hne : ¬ d = c := fun hx => hcd hx.symm
        simp only [goStrLt, if_neg hne]
        exact decide_eq_false hdc

theorem goStrLt_total (a b : Str) (h : a ≠ b) :
    goStrLt a b = true ∨ goStrLt b a = true := by
  induction a generalizing b with
  | nil =>
    cases b with
    | nil => exact absurd rfl h
    | cons d ds => left; rfl
  | cons c cs ih =>
    cases b with
    | nil => right; rfl
    | cons d ds =>
      by_cases hcd : c = d
      · subst hcd
        have hne : cs ≠ ds := fun he => h (by rw [he])
        rcases ih ds hne with h1 | h1
        · left; simpa [goStrLt] using h1
        · right; simpa [goStrLt] using h1
      · rcases lt_or_gt_of_ne hcd with hlt | hgt
        · left; simp [goStrLt, hcd, hlt]
        · right
          have hne : ¬ d = c := fun hx => hcd hx.symm
          have hlt' : d < c := hgt
          simp [goStrLt, hne, hlt']

theorem goStrLt_iff_lex (a b : Str) :
    goStrLt a b = true ↔ List.Lex (· < ·) a b := by
  induction a generalizing b with
  | nil =>
    cases b with
    | nil =>
      constructor
      · intro h; simp [goStrLt] at h
      · intro h; exact absurd h (List.Lex.not_nil_right _ _)
    | cons d ds =>
      constructor
      · intro _; exact List.Lex.nil
      · intro _; rfl
  | cons c cs ih =>
    cases b with
    | nil =>
      constructor
      · intro h; simp [goStrLt] at h
      · intro h; exact absurd h (List.Lex.not_nil_right _ _)
    | cons d ds =>
      by_cases hcd : c = d
      · subst hcd
        rw [List.Lex.cons_iff]
        simpa [goStrLt] using ih ds
      · constructor
        · intro h
          simp only [goStrLt, if_neg hcd, decide_eq_true_eq] at h
          exact List.Lex.rel h
        · intro h
          cases h with
          | cons h' => exact absurd rfl hcd
          | rel h' => simp [goStrLt, hcd, h']

theorem parseVersion_nil : ParseVersion [] = none := rfl

theorem parseVersion_ne_nil {s : Str} {v : VersionInfo}
    (h : ParseVersion s = some v) : s ≠ [] := by
  intro he; subst he; simp [ParseVersion] at h

/-- C1: a Range contains a version iff the version compares equal to no
exclusion and lies in at least one interval; in particular the range
parsed from the URI `vers:npm/>=1.0.0|!=1.5.0` rejects `1.5.0` and
accepts `1.6.0`. -/
theorem C1_range_contains_iff :
    (∀ (r : Range) (v : Str),
        r.contains v = true ↔
          ((∀ e ∈ r.exclusions, ¬ CompareVersions v e = 0) ∧
            ∃ i ∈ r.intervals, i.contains v = true)) ∧
    (Parse (("vers:npm/>=1.0.0|!=1.5.0").toList)).map
        (fun r => (r.contains (("1.5.0").toList), r.contains (("1.6.0").toList)))
      = some (false, true) := by
  constructor
  · intro r v
    rw [Range.contains]
    by_cases h : r.exclusions.any (fun exc => CompareVersions v exc = 0) = true
    · rw [if_pos h]
      rw [List.any_eq_true] at h
      obtain ⟨e, he, heq⟩ := h
      constructor
      · intro hfe; exact absurd hfe (by decide)
      · rintro ⟨hall, -⟩
        exact absurd (of_decide_eq_true heq) (hall e he)
    · rw [if_neg h]
      rw [List.any_eq_true] at h
      constructor
      · intro hex
        rw [List.any_eq_true] at hex
        exact ⟨fun e he hq => h ⟨e, he, decide_eq_true hq⟩, hex⟩
      · rintro ⟨-, hex⟩
        rw [List.any_eq_true]
        exact hex
  · decide

/-- C2: CompareVersions obeys the generic comparison contract: equal
strings give 0; the empty string is below any non-empty string; a
parseable version beats an unparseable one (in both argument orders);
two unparseable strings compare lexicographically; and when both parse
with equal numeric triples, a version without prerelease is strictly
greater than one with a prerelease. -/
theorem C2_compare_versions_contract :
    (∀ a b : Str, a = b → CompareVersions a b = 0) ∧
    (∀ b : Str, b ≠ [] → CompareVersions [] b = -1 ∧ CompareVersions b [] = 1) ∧
    (∀ a b : Str, ParseVersion a = none → ParseVersion b ≠ none →
      CompareVersions a b = -1 ∧ CompareVersions b a = 1) ∧
    (∀ a b : Str, ParseVersion a = none → ParseVersion b = none →
      ((CompareVersions a b = -1 ↔ List.Lex (· < ·) a b) ∧
        (CompareVersions a b = 0 ↔ a = b) ∧
        (CompareVersions a b = 1 ↔ List.Lex (· < ·) b a))) ∧
    (∀ (a b : Str) (va vb : VersionInfo),
      ParseVersion a = some va → ParseVersion b = some vb →
      va.major = vb.major → va.minor = vb.minor → va.patch = vb.patch →
      va.prerelease = [] → vb.prerelease ≠ [] →
      CompareVersions a b = 1) := by
  refine ⟨?_, ?_, ?_, ?_, ?_⟩
  · intro a b h; subst h; simp [CompareVersions]
  · intro b hb
    constructor
    · rw [CompareVersions, if_neg (by exact fun he => hb he.symm), if_pos rfl]
    · rw [CompareVersions, if_neg hb, if_neg hb, if_pos rfl]
  · intro a b ha hb
    have hbn : b ≠ [] := by
      intro he; subst he; exact hb parseVersion_nil
    have hab : a ≠ b := by
      intro he; subst he; exact hb ha
    constructor
    · rw [CompareVersions, if_neg hab]
      by_cases hae : a = []
      · rw [if_pos hae]
      · rw [if_neg hae, if_neg hbn, ha]
        cases hpb : ParseVersion b with
        | none => exact absurd hpb hb
        | some vb => rfl
    · rw [CompareVersions, if_neg (fun he => hab he.symm), if_neg hbn]
      by_cases hae : a = []
      · rw [if_pos hae]
      · rw [if_neg hae, ha]
        cases hpb : ParseVersion b with
        | none => exact absurd hpb hb
        | some vb => rfl
  · intro a b ha hb
    by_cases hab : a = b
    · subst hab
      rw [CompareVersions, if_pos rfl]
      refine ⟨?_, by simp, ?_⟩
      · constructor
        · intro h; cases h
        · intro h
          have := (goStrLt_iff_lex a a).mpr h
          rw [goStrLt_irrefl] at this
          cases this
      · constructor
        · intro h; cases h
        · intro h
          have := (goStrLt_iff_lex a a).mpr h
          rw [goStrLt_irrefl] at this
          cases this
    · by_cases hae : a = []
      · subst hae
        have hbn : b ≠ [] := fun he => hab he.symm
        rw [CompareVersions, if_neg hab, if_pos rfl]
        refine ⟨?_, ?_, ?_⟩
        · constructor
          · intro _
            cases b with
            | nil => exact absurd rfl hbn
            | cons d ds => exact List.Lex.nil
          · intro _; rfl
        · constructor
          · intro h; exact absurd h (by decide)
          · intro h; exact absurd h hab
        · constructor
          · intro h; exact absurd h (by decide)
          · intro h; exact absurd h (List.Lex.not_nil_right _ _)
      · by_cases hbe : b = []
        · subst hbe
          rw [CompareVersions, if_neg hab, if_neg hae, if_pos rfl]
          refine ⟨?_, ?_, ?_⟩
          · constructor
            · intro h; exact absurd h (by decide)
            · intro h; exact absurd h (List.Lex.not_nil_right _ _)
          · constructor
            · intro h; exact absurd h (by decide)
            · intro h; exact absurd h hab
          · constructor
            · intro _
              cases a with
              | nil => exact absurd rfl hae
              | cons c cs => exact List.Lex.nil
            · intro _; rfl
        · rw [CompareVersions, if_neg hab, if_neg hae, if_neg hbe, ha, hb]
          by_cases hlt : goStrLt a b = true
          · rw [if_pos hlt]
            refine ⟨?_, ?_, ?_⟩
            · constructor
              · intro _; exact (goStrLt_iff_lex a b).mp hlt
              · intro _; rfl
            · constructor
              · intro h; exact absurd h (by decide)
              · intro h; exact absurd h hab
            · constructor
              · intro h; exact absurd h (by decide)
              · intro h
                have := (goStrLt_iff_lex b a).mpr h
                rw [goStrLt_asymm a b hlt] at this
                cases this
          · rw [if_neg hlt]
            have hba : goStrLt b a = true := by
              rcases goStrLt_total a b hab with h1 | h1
              · exact absurd h1 hlt
              · exact h1
            refine ⟨?_, ?_, ?_⟩
            · constructor
              · intro h; exact absurd h (by decide)
              · intro h
                exact absurd ((goStrLt_iff_lex a b).mpr h) hlt
            · constructor
              · intro h; exact absurd h (by decide)
              · intro h; exact absurd h hab
            · constructor
              · intro _; exact (goStrLt_iff_lex b a).mp hba
              · intro _; rfl
  · intro a b va vb hpa hpb h1 h2 h3 h4 h5
    have hab : a ≠ b := by
      intro he; subst he
      rw [hpa] at hpb
      injection hpb with hvv
      subst hvv
      exact h5 h4
    rw [CompareVersions, if_neg hab,
      if_neg (parseVersion_ne_nil hpa), if_neg (parseVersion_ne_nil hpb), hpa, hpb]
    simp [VersionInfo.compare, h1, h2, h3, h4, h5]

/-- Witness for C2 at concrete inputs: `xy` does not parse, `1` does. -/
theorem C2_compare_versions_contract_witness :
    CompareVersions (['x', 'y']) (['1']) = -1 ∧ CompareVersions (['1']) (['x', 'y']) = 1 :=
  C2_compare_versions_contract.2.2.1 (['x', 'y']) (['1']) (by decide) (by decide)

/-- C3: under the maven scheme, same-level qualifier components are
ordered ascending by the table alpha < beta < milestone < rc < snapshot <
"" (release) < sp < any unrecognized qualifier (those compare
lexicographically among themselves) < any numeric token; in particular
`1.0-alpha` sorts below `1.0` and below `1.0-beta`. -/
theorem C3_maven_qualifier_order :
    (∀ (ad : Bool) (q1 q2 : Str),
        (getMavenQualifierOrder q1).1 < (getMavenQualifierOrder q2).1 →
        compareMavenComponentsNew (mkQual q1 ad) (mkQual q2 ad) = -1) ∧
    (∀ (ad : Bool) (q1 q2 : Str),
        getMavenQualifierOrder q1 = (8, false) →
        getMavenQualifierOrder q2 = (8, false) →
        goStrLt q1 q2 = true →
        compareMavenComponentsNew (mkQual q1 ad) (mkQual q2 ad) = -1) ∧
    (∀ (ad : Bool) (q : Str) (n : Int),
        compareMavenComponentsNew (mkQual q ad) (mkNum n ad) = -1) ∧
    (∀ ad : Bool,
        List.Chain'
          (fun q1 q2 => compareMavenComponentsNew (mkQual q1 ad) (mkQual q2 ad) = -1)
          [['a', 'l', 'p', 'h', 'a'], ['b', 'e', 't', 'a'],
           ['m', 'i', 'l', 'e', 's', 't', 'o', 'n', 'e'], ['r', 'c'],
           ['s', 'n', 'a', 'p', 's', 'h', 'o', 't'], [], ['s', 'p']]) ∧
    CompareWithScheme (("1.0-alpha").toList) (("1.0").toList) (['m', 'a', 'v', 'e', 'n']) = -1 ∧
    CompareWithScheme (("1.0-alpha").toList) (("1.0-beta").toList) (['m', 'a', 'v', 'e', 'n']) = -1 := by
  refine ⟨?_, ?_, ?_, ?_, by decide, by decide⟩
  · intro ad q1 q2 h
    have hne : (getMavenQualifierOrder q1).1 ≠ (getMavenQualifierOrder q2).1 := ne_of_lt h
    simp [compareMavenComponentsNew, mkQual, hne, h]
  · intro ad q1 q2 h1 h2 hlt
    have hne : goStrLt q2 q1 = false := goStrLt_asymm q1 q2 hlt
    simp [compareMavenComponentsNew, mkQual, h1, h2, hlt, hne]
  · intro ad q n
    simp [compareMavenComponentsNew, mkQual, mkNum]
  · intro ad
    cases ad <;>
      · simp only [List.chain'_cons, List.chain'_singleton, and_true]
        decide

/-- Witness for C3: the ascending-order rule applied to alpha and beta at
the direct level. -/
theorem C3_maven_qualifier_order_witness :
    compareMavenComponentsNew (mkQual (['a', 'l', 'p', 'h', 'a']) false)
      (mkQual (['b', 'e', 't', 'a']) false) = -1 :=
  C3_maven_qualifier_order.1 false (['a', 'l', 'p', 'h', 'a']) (['b', 'e', 't', 'a'])
    (by decide)

theorem contains_lower_only (m : Str) (mi ma : Bool) (v : Str) (hm : m ≠ []) :
    Interval.contains ⟨m, [], mi, ma⟩ v =
      if mi then decide (0 ≤ CompareVersions v m) else decide (0 < CompareVersions v m) := by
  rw [Interval.contains, if_neg ?he, if_neg ?hu]
  case he => simp [Interval.isEmpty]
  case hu => simp [Interval.isUnbounded, hm]
  simp [hm]

theorem contains_upper_only (x : Str) (mi xi : Bool) (v : Str) (hx : x ≠ []) :
    Interval.contains ⟨[], x, mi, xi⟩ v =
      if xi then decide (CompareVersions v x ≤ 0) else decide (CompareVersions v x < 0) := by
  rw [Interval.contains, if_neg ?he, if_neg ?hu]
  case he => simp [Interval.isEmpty]
  case hu => simp [Interval.isUnbounded, hx]
  simp [hx]

theorem contains_two_bounds (m x : Str) (mi xi : Bool) (v : Str) (hm : m ≠ []) (hx : x ≠ [])
    (hne : Interval.isEmpty ⟨m, x, mi, xi⟩ = false) :
    Interval.contains ⟨m, x, mi, xi⟩ v =
      ((if mi then decide (0 ≤ CompareVersions v m) else decide (0 < CompareVersions v m)) &&
        (if xi then decide (CompareVersions v x ≤ 0) else decide (CompareVersions v x < 0))) := by
  rw [Interval.contains, if_neg (by simp [hne]), if_neg ?hu]
  case hu => simp [Interval.isUnbounded, hm]
  simp [hm, hx]

/-- C4 counterexample: the claim says a lower-bound-only clause followed
by an upper-bound-only clause is always intersected into a single bounded
interval, but when the intersection is empty (here `>=2.0.0|<1.0.0`) the
scan keeps both clauses as separate union members: the parsed range still
accepts `0.5.0`, which the claimed single intersected interval rejects. -/
theorem C4_counterexample_empty_intersection_not_merged :
    ¬ (icLoop [NewInterval (("2.0.0").toList) [] true false,
               NewInterval [] (("1.0.0").toList) false false]
        = [(NewInterval (("2.0.0").toList) [] true false).intersect
            (NewInterval [] (("1.0.0").toList) false false)]) ∧
    (Parse (("vers:npm/>=2.0.0|<1.0.0").toList)).map
        (fun r => r.contains (("0.5.0").toList)) = some true ∧
    ((NewInterval (("2.0.0").toList) [] true false).intersect
        (NewInterval [] (("1.0.0").toList) false false)).contains
      (("0.5.0").toList) = false := by
  refine ⟨by decide, by decide, by decide⟩

/-- C4 (amended): when a non-exclusion clause supplying only a lower
bound is immediately followed by one supplying only an upper bound (or
vice versa) and their intersection is non-empty, the pair is intersected
into a single bounded interval rather than unioned (an empty intersection
leaves both clauses as separate union members); the merged interval holds
exactly the versions both clauses admit, and the range parsed from
`vers:npm/>=1.0.0|<2.0.0` accepts `1.5.0` and rejects `2.0.0` and
`0.9.0`. -/
theorem C4_pairwise_intersection :
    (∀ (current next : Interval) (rest : List Interval),
        ((current.min ≠ [] ∧ current.max = [] ∧ next.max ≠ [] ∧ next.min = []) ∨
          (current.max ≠ [] ∧ current.min = [] ∧ next.min ≠ [] ∧ next.max = [])) →
        (current.intersect next).isEmpty = false →
        icLoop (current :: next :: rest) = current.intersect next :: icLoop rest) ∧
    (∀ (current next : Interval) (v : Str),
        ((current.min ≠ [] ∧ current.max = [] ∧ next.max ≠ [] ∧ next.min = []) ∨
          (current.max ≠ [] ∧ current.min = [] ∧ next.min ≠ [] ∧ next.max = [])) →
        (current.intersect next).isEmpty = false →
        (current.intersect next).contains v =
          (current.contains v && next.contains v)) ∧
    (Parse (("vers:npm/>=1.0.0|<2.0.0").toList)).map
        (fun r => (r.contains (("1.5.0").toList), r.contains (("2.0.0").toList),
                   r.contains (("0.9.0").toList)))
      = some (true, false, false) := by
  refine ⟨?_, ?_, by decide⟩
  · intro current next rest hcond hne
    rw [icLoop, if_pos hcond, if_pos (by simp [hne])]
  · intro current next v hcond hne
    rcases hcond with ⟨h1, h2, h3, h4⟩ | ⟨h1, h2, h3, h4⟩
    · obtain ⟨cmin, cmax, cmi, cma⟩ := current
      obtain ⟨nmin, nmax, nmi, nma⟩ := next
      simp only at h1 h2 h3 h4
      subst h2 h4
      have hce : Interval.isEmpty ⟨cmin, [], cmi, cma⟩ = false := by
        simp [Interval.isEmpty]
      have hnee : Interval.isEmpty ⟨[], nmax, nmi, nma⟩ = false := by
        simp [Interval.isEmpty]
      have hint : Interval.intersect ⟨cmin, [], cmi, cma⟩ ⟨[], nmax, nmi, nma⟩
          = ⟨cmin, nmax, cmi, nma⟩ := by
        rw [Interval.intersect, if_neg (by simp [hce, hnee])]
        simp [h1, h3]
      rw [hint] at hne ⊢
      rw [contains_two_bounds cmin nmax cmi nma v h1 h3 hne,
        contains_lower_only cmin cmi cma v h1,
        contains_upper_only nmax nmi nma v h3]
    · obtain ⟨cmin, cmax, cmi, cma⟩ := current
      obtain ⟨nmin, nmax, nmi, nma⟩ := next
      simp only at h1 h2 h3 h4
      subst h2 h4
      have hce : Interval.isEmpty ⟨[], cmax, cmi, cma⟩ = false := by
        simp [Interval.isEmpty]
      have hnee : Interval.isEmpty ⟨nmin, [], nmi, nma⟩ = false := by
        simp [Interval.isEmpty]
      have hint : Interval.intersect ⟨[], cmax, cmi, cma⟩ ⟨nmin, [], nmi, nma⟩
          = ⟨nmin, cmax, nmi, cma⟩ := by
        rw [Interval.intersect, if_neg (by simp [hce, hnee])]
        simp [h1, h3]
      rw [hint] at hne ⊢
      rw [contains_two_bounds nmin cmax nmi cma v h3 h1 hne,
        contains_upper_only cmax cmi cma v h1,
        contains_lower_only nmin nmi nma v h3]
      exact Bool.and_comm _ _

/-- Witness for C4: the step rule applied to the pair parsed from
`>=1.0.0` and `<2.0.0`. -/
theorem C4_pairwise_intersection_witness :
    icLoop [NewInterval (("1.0.0").toList) [] true false,
            NewInterval [] (("2.0.0").toList) false false]
      = [(NewInterval (("1.0.0").toList) [] true false).intersect
          (NewInterval [] (("2.0.0").toList) false false)] :=
  C4_pairwise_intersection.1 (NewInterval (("1.0.0").toList) [] true false)
    (NewInterval [] (("2.0.0").toList) false false) [] (by decide) (by decide)

theorem takeWhile_all_append (p : Char → Bool) (A B : Str) (x : Char)
    (hA : ∀ c ∈ A, p c = true) (hx : p x = false) :
    (A ++ x :: B).takeWhile p = A ∧ (A ++ x :: B).dropWhile p = x :: B := by
  induction A with
  | nil => simp [List.takeWhile, List.dropWhile, hx]
  | cons a as ih =>
    have ha : p a = true := hA a (List.mem_cons_self a as)
    have ih' := ih (fun c hc => hA c (List.mem_cons_of_mem a hc))
    simp only [List.cons_append, List.takeWhile_cons, List.dropWhile_cons, ha, if_true]
    exact ⟨by rw [ih'.1], by rw [ih'.2]⟩

theorem versURIMatch_build (sch con : Str) (h1 : sch ≠ []) (h2 : ∀ c ∈ sch, c ≠ '/')
    (h3 : con.contains '\n' = false) :
    versURIMatch (['v', 'e', 'r', 's', ':'] ++ sch ++ '/' :: con) = some (sch, con) := by
  have hsplit := takeWhile_all_append (fun c => c ≠ '/') sch con '/'
    (fun c hc => by simpa using h2 c hc) (by simp)
  rw [versURIMatch]
  rw [if_pos (by simp)]
  have hdrop : (['v', 'e', 'r', 's', ':'] ++ sch ++ '/' :: con).drop 5 = sch ++ '/' :: con := by
    simp
  simp only [hdrop, hsplit.1, hsplit.2]
  rw [if_pos ?hc]
  case hc =>
    refine ⟨h1, by simp, ?_⟩
    simpa using h3
  simp

theorem versURIMatch_inv {uri sch con : Str}
    (h : versURIMatch uri = some (sch, con)) :
    uri = ['v', 'e', 'r', 's', ':'] ++ sch ++ '/' :: con ∧ sch ≠ [] ∧
      (∀ c ∈ sch, c ≠ '/') := by
  rw [versURIMatch] at h
  by_cases h5 : uri.take 5 = ['v', 'e', 'r', 's', ':']
  · rw [if_pos h5] at h
    simp only [] at h
    by_cases hcond : (uri.drop 5).takeWhile (fun c => c ≠ '/') ≠ [] ∧
        ((uri.drop 5).dropWhile (fun c => c ≠ '/')).take 1 = ['/'] ∧
        ¬ (((uri.drop 5).dropWhile (fun c => c ≠ '/')).drop 1).contains '\n'
    · rw [if_pos hcond] at h
      injection h with h'
      injection h' with hs hcon
      obtain ⟨hs1, hs2, -⟩ := hcond
      rcases hd : (uri.drop 5).dropWhile (fun c => c ≠ '/') with _ | ⟨c, tl⟩
      · rw [hd] at hs2; cases hs2
      · rw [hd] at hs2 hcon
        have hcc : c = '/' := by
          simpa [List.take] using hs2
        subst hcc
        simp only [List.drop_succ_cons, List.drop_zero] at hcon
        refine ⟨?_, by rw [← hs]; exact hs1, fun x hx => ?_⟩
        · have huri : uri = ['v', 'e', 'r', 's', ':'] ++ uri.drop 5 := by
            conv_lhs => rw [← List.take_append_drop 5 uri]
            rw [h5]
          rw [huri, ← hs, ← hcon]
          have hdec : uri.drop 5 =
              (uri.drop 5).takeWhile (fun c => c ≠ '/') ++ ('/' :: tl) := by
            conv_lhs => rw [← List.takeWhile_append_dropWhile
              (p := fun c => c ≠ '/') (l := uri.drop 5)]
            rw [hd]
          conv_lhs => rw [hdec]
          simp
        · rw [← hs] at hx
          have := List.mem_takeWhile_imp hx
          simpa using this
    · rw [if_neg hcond] at h; cases h
  · rw [if_neg h5] at h; cases h

/-- C5 counterexample: `vers:npm/>=` has the literal form
`vers:<scheme>/<constraints>` with the non-empty scheme `npm`, yet Parse
rejects it, because the constraint clause `>=` lacks a version; so Parse
does not fail *exactly* on URIs lacking that form. -/
theorem C5_counterexample_wellformed_uri_fails :
    (("vers:npm/>=").toList) =
      ['v', 'e', 'r', 's', ':'] ++ (("npm").toList) ++ '/' :: ((">=").toList) ∧
    (("npm").toList) ≠ [] ∧
    Parse (("vers:npm/>=").toList) = none := by
  refine ⟨by decide, by decide, by decide⟩

/-- C5 (amended): Parse succeeds only on URIs of the literal form
`vers:<scheme>/<constraints>` with a non-empty `/`-free scheme (so it
fails whenever the URI lacks that form), and on such a URI whose
constraints part is `*` or empty it returns the universal Range; a URI of
the correct form can still be rejected when a constraint clause inside it
is malformed, as the counterexample shows. -/
theorem C5_parse_uri_form :
    (∀ (uri : Str) (r : Range), Parse uri = some r →
        ∃ scheme constraints : Str,
          uri = ['v', 'e', 'r', 's', ':'] ++ scheme ++ '/' :: constraints ∧
            scheme ≠ [] ∧ (∀ c ∈ scheme, c ≠ '/')) ∧
    (∀ scheme constraints : Str, scheme ≠ [] → (∀ c ∈ scheme, c ≠ '/') →
        (constraints = ['*'] ∨ constraints = []) →
        Parse (['v', 'e', 'r', 's', ':'] ++ scheme ++ '/' :: constraints)
          = some UnboundedR) := by
  constructor
  · intro uri r h
    rw [Parse] at h
    rcases hm : versURIMatch uri with _ | ⟨sch, con⟩
    · rw [hm] at h; cases h
    · obtain ⟨he, h1, h2⟩ := versURIMatch_inv hm
      exact ⟨sch, con, he, h1, h2⟩
  · intro scheme constraints h1 h2 h3
    have hn : constraints.contains '\n' = false := by
      rcases h3 with h | h <;> subst h <;> decide
    rw [Parse, versURIMatch_build scheme constraints h1 h2 hn]
    rcases h3 with h | h <;> subst h <;> rfl

/-- Witness for C5: the universal-range rule applied to `vers:npm/`. -/
theorem C5_parse_uri_form_witness :
    Parse (['v', 'e', 'r', 's', ':'] ++ ['n', 'p', 'm'] ++ '/' :: []) = some UnboundedR :=
  C5_parse_uri_form.2 (['n', 'p', 'm']) [] (by decide) (by decide) (Or.inr rfl)

/-- C8 counterexample: when the left operand is the empty range,
`Range.Union` returns the right operand unchanged, so its exclusions
survive even though the left operand excludes nothing; the exclusion set
of the union is then not the intersection of the two exclusion sets. -/
theorem C8_counterexample_empty_operand :
    (("2.0.0").toList) ∈
      (Range.union { intervals := [], exclusions := [] }
        { intervals := [UnboundedInterval],
          exclusions := [(("2.0.0").toList)] }).exclusions ∧
    (("2.0.0").toList) ∉
      ({ intervals := [], exclusions := [] } : Range).exclusions := by
  refine ⟨by decide, by decide⟩

/-- C8 (amended): for ranges a and b that are both non-empty, a version
string is in the exclusion list of a.Union(b) exactly when it is in both
a's and b's exclusion lists (the set intersection); when either operand
is empty the union is the other operand, exclusions and all. -/
theorem C8_union_exclusions :
    ∀ a b : Range, a.isEmpty = false → b.isEmpty = false →
      ∀ e : Str, e ∈ (a.union b).exclusions ↔ (e ∈ a.exclusions ∧ e ∈ b.exclusions) := by
  intro a b ha hb e
  rw [Range.union, if_neg (by simp [ha]), if_neg (by simp [hb])]
  simp only [List.mem_filter, List.any_eq_true, decide_eq_true_eq]
  constructor
  · rintro ⟨h1, oe, h2, h3⟩
    exact ⟨h1, h3 ▸ h2⟩
  · rintro ⟨h1, h2⟩
    exact ⟨h1, e, h2, rfl⟩

/-- Witness for C8 at two concrete non-empty ranges. -/
theorem C8_union_exclusions_witness :
    (("1.0.0").toList) ∈
        (Range.union { intervals := [UnboundedInterval], exclusions := [(("1.0.0").toList)] }
          { intervals := [UnboundedInterval],
            exclusions := [(("1.0.0").toList), (("2.0.0").toList)] }).exclusions ↔
      ((("1.0.0").toList) ∈
          ({ intervals := [UnboundedInterval],
             exclusions := [(("1.0.0").toList)] } : Range).exclusions ∧
        (("1.0.0").toList) ∈
          ({ intervals := [UnboundedInterval],
             exclusions := [(("1.0.0").toList), (("2.0.0").toList)] } : Range).exclusions) :=
  C8_union_exclusions
    { intervals := [UnboundedInterval], exclusions := [(("1.0.0").toList)] }
    { intervals := [UnboundedInterval],
      exclusions := [(("1.0.0").toList), (("2.0.0").toList)] }
    (by decide) (by decide) (("1.0.0").toList)

/-- C9 counterexample: the malformed maven bracket constraint `[]` is
accepted without error and silently yields the universal range (an exact
interval on the empty version string, whose empty bounds make it
unbounded), contradicting the claim that malformed input never silently
substitutes a default range. -/
theorem C9_counterexample_empty_brackets :
    ParseNative (("[]").toList) (['m', 'a', 'v', 'e', 'n']) = some (Exact []) ∧
    (Exact ([] : Str)).isUnbounded = true ∧
    (Exact ([] : Str)).contains (("9.9.9").toList) = true := by
  refine ⟨by decide, by decide, by decide⟩

/-- C9 (amended): the parsing entry points report a typed error (modelled
as `none`) rather than a default range for malformed clauses — an empty
clause or a bare operator with no version fails for every scheme, and a
vers URI containing such a clause fails as a whole — but maven bracket
parsing is an exception: the malformed constraint `[]` is accepted and
yields the universal range. -/
theorem C9_typed_errors :
    (∀ scheme : Str, parseConstraintWithScheme [] scheme = none) ∧
    (∀ scheme : Str, parseConstraintWithScheme (['>', '=']) scheme = none) ∧
    (∀ scheme : Str, parseConstraintWithScheme (['<', '=']) scheme = none) ∧
    (∀ scheme : Str, parseConstraintWithScheme (['!', '=']) scheme = none) ∧
    (∀ scheme : Str, parseConstraintWithScheme (['>']) scheme = none) ∧
    (∀ scheme : Str, parseConstraintWithScheme (['<']) scheme = none) ∧
    (∀ scheme : Str, parseConstraintWithScheme (['=']) scheme = none) ∧
    Parse (("vers:npm/>=|<2.0.0").toList) = none ∧
    ParseNative (("[]").toList) (['m', 'a', 'v', 'e', 'n']) = some (Exact []) := by
  refine ⟨fun _ => rfl, fun _ => rfl, fun _ => rfl, fun _ => rfl,
    fun _ => rfl, fun _ => rfl, fun _ => rfl, by decide, by decide⟩

theorem mavenSplitLoop_append_zero (cs : Str) :
    ∀ (cur : Str) (lwd fc cad : Bool),
      mavenSplitLoop (cs ++ ['.', '0']) cur lwd fc cad
        = mavenSplitLoop cs cur lwd fc cad ++ [(['0'], false)] := by
  induction cs with
  | nil =>
    intro cur lwd fc cad
    by_cases hcur : cur = [] <;>
      simp [mavenSplitLoop, hcur]
  | cons c cs ih =>
    intro cur lwd fc cad
    by_cases hsep : c = '.' ∨ c = '-'
    · simp only [List.cons_append, mavenSplitLoop, if_pos hsep, List.append_eq]
      rw [ih]
      by_cases hcur : cur = [] <;> simp [hcur]
    · simp only [List.cons_append, mavenSplitLoop, if_neg hsep, List.append_eq]
      by_cases ht : fc = false ∧ c.isDigit ≠ lwd ∧ cur ≠ []
      · rw [if_pos ht, if_pos ht, ih]
        simp
      · rw [if_neg ht, if_neg ht, ih]

theorem normWithNext_not_single (part : Str)
    (h : ¬ (part = ['a'] ∨ part = ['b'] ∨ part = ['m'])) :
    normalizeMavenQualifierWithNext part true = normalizeMavenQualifierWithNext part false := by
  push_neg at h
  obtain ⟨ha, hb, hm⟩ := h
  rw [normalizeMavenQualifierWithNext, normalizeMavenQualifierWithNext]
  by_cases hl : part.length = 1
  · simp [hl, ha, hb, hm]
  · simp [hl]

theorem mavenComponentsOfParts_cons_skip (ad : Bool) (rest : List (Str × Bool)) :
    mavenComponentsOfParts (([], ad) :: rest) = mavenComponentsOfParts rest := by
  rw [mavenComponentsOfParts, if_pos rfl]

theorem mavenComponentsOfParts_cons (part : Str) (ad : Bool) (rest : List (Str × Bool))
    (hpe : part ≠ []) :
    mavenComponentsOfParts ((part, ad) :: rest)
      = (if normalizeMavenQualifierWithNext part (nextTokenNumeric rest) = [] then []
         else
           match atoiQ (normalizeMavenQualifierWithNext part (nextTokenNumeric rest)) with
           | some num => [{ isNumeric := true, numeric := num, afterDash := ad }]
           | none => [{ qualifier := normalizeMavenQualifierWithNext part (nextTokenNumeric rest),
                        afterDash := ad }])
        ++ mavenComponentsOfParts rest := by
  rw [mavenComponentsOfParts, if_neg hpe]
  by_cases hz : normalizeMavenQualifierWithNext part (nextTokenNumeric rest) = []
  · rw [if_pos hz, if_pos hz]
    rfl
  · rw [if_neg hz, if_neg hz]
    rcases hq : atoiQ (normalizeMavenQualifierWithNext part (nextTokenNumeric rest))
        with _ | n <;> simp only [hq] <;> rfl

theorem mavenComponents_append_zero (parts : List (Str × Bool))
    (hlast : ∀ lp, parts.getLast? = some lp →
      ¬ (lp.1 = ['a'] ∨ lp.1 = ['b'] ∨ lp.1 = ['m'])) :
    mavenComponentsOfParts (parts ++ [(['0'], false)])
      = mavenComponentsOfParts parts ++ [zeroMavenComponent] := by
  induction parts with
  | nil => rfl
  | cons p rest ih =>
    obtain ⟨part, ad⟩ := p
    by_cases hpe : part = []
    · subst hpe
      rw [List.cons_append, mavenComponentsOfParts_cons_skip,
        mavenComponentsOfParts_cons_skip]
      rcases hr : rest with _ | ⟨r0, rs⟩
      · rfl
      · subst hr
        exact ih (fun lp hlp => hlast lp (by rw [List.getLast?_cons_cons]; exact hlp))
    · rw [List.cons_append,
        mavenComponentsOfParts_cons part ad (rest ++ [(['0'], false)]) hpe,
        mavenComponentsOfParts_cons part ad rest hpe]
      rcases hr : rest with _ | ⟨r0, rs⟩
      · subst hr
        have hp := hlast (part, ad) rfl
        have hnorm := normWithNext_not_single part (by simpa using hp)
        have hdig : nextTokenNumeric ([] ++ [(['0'], false)]) = true := by decide
        rw [hdig, show nextTokenNumeric ([] : List (Str × Bool)) = false from rfl, hnorm]
        rw [show mavenComponentsOfParts ([] ++ [(['0'], false)])
            = [zeroMavenComponent] from rfl]
        rw [show mavenComponentsOfParts ([] : List (Str × Bool)) = [] from rfl]
        simp
      · subst hr
        obtain ⟨n0, b0⟩ := r0
        have hlast' : ∀ lp, ((n0, b0) :: rs).getLast? = some lp →
            ¬ (lp.1 = ['a'] ∨ lp.1 = ['b'] ∨ lp.1 = ['m']) := by
          intro lp hlp
          apply hlast
          rw [List.getLast?_cons_cons]
          exact hlp
        have ih' := ih hlast'
        have hnext : nextTokenNumeric (((n0, b0) :: rs) ++ [(['0'], false)])
            = nextTokenNumeric ((n0, b0) :: rs) := rfl
        rw [hnext, ih']
        simp

theorem findIdx_afterDash_none_aux (comps : List MavenComponent)
    (hall : ∀ c ∈ comps, c.afterDash = false) :
    ∀ i : Nat, List.findIdx? (fun c => c.afterDash) comps i = none := by
  induction comps with
  | nil => intro i; rfl
  | cons c cs ih =>
    intro i
    rw [List.findIdx?_cons]
    rw [hall c (List.mem_cons_self c cs)]
    rw [if_neg (by simp)]
    exact ih (fun x hx => hall x (List.mem_cons_of_mem c hx)) (i + 1)

theorem findIdx_afterDash_none (comps : List MavenComponent)
    (hall : ∀ c ∈ comps, c.afterDash = false) :
    comps.findIdx? (fun c => c.afterDash) = none :=
  findIdx_afterDash_none_aux comps hall 0

theorem normalize_append_zero (comps : List MavenComponent)
    (hall : ∀ c ∈ comps, c.afterDash = false) :
    normalizeMavenComponents (comps ++ [zeroMavenComponent])
      = normalizeMavenComponents comps := by
  have hall' : ∀ c ∈ comps ++ [zeroMavenComponent], c.afterDash = false := by
    intro c hc
    rcases List.mem_append.mp hc with h | h
    · exact hall c h
    · simp at h; subst h; rfl
  rw [normalizeMavenComponents, if_neg (by simp)]
  rw [findIdx_afterDash_none _ hall']
  rcases hcs : comps with _ | ⟨c0, cs⟩
  · rfl
  · rw [← hcs, normalizeMavenComponents, if_neg (by rw [hcs]; simp)]
    rw [findIdx_afterDash_none _ hall]
    have hrev : (comps ++ [zeroMavenComponent]).reverse
        = zeroMavenComponent :: comps.reverse := by
      simp
    rw [hrev]
    rw [List.dropWhile_cons]
    simp [isZeroNumeric, zeroMavenComponent]

theorem mavenComponents_afterDash (parts : List (Str × Bool))
    (hp : ∀ q ∈ parts, q.2 = false) :
    ∀ c ∈ mavenComponentsOfParts parts, c.afterDash = false := by
  induction parts with
  | nil => intro c hc; simp [mavenComponentsOfParts] at hc
  | cons p rest ih =>
    intro c hc
    obtain ⟨part, ad⟩ := p
    have had : ad = false := hp (part, ad) (List.mem_cons_self _ _)
    subst had
    have hrest : ∀ q ∈ rest, q.2 = false :=
      fun q hq => hp q (List.mem_cons_of_mem _ hq)
    rw [mavenComponentsOfParts] at hc
    by_cases hpe : part = []
    · rw [if_pos hpe] at hc
      exact ih hrest c hc
    · rw [if_neg hpe] at hc
      simp only [] at hc
      by_cases hz : normalizeMavenQualifierWithNext part (nextTokenNumeric rest) = []
      · rw [if_pos hz] at hc
        exact ih hrest c hc
      · rw [if_neg hz] at hc
        rcases hq : atoiQ (normalizeMavenQualifierWithNext part (nextTokenNumeric rest))
            with _ | n <;>
          simp only [hq] at hc <;>
          rcases List.mem_cons.mp hc with h | h <;>
          first
            | (subst h; rfl)
            | exact ih hrest c h

theorem compareMavenComponentsNew_self (c : MavenComponent) :
    compareMavenComponentsNew c c = 0 := by
  rw [compareMavenComponentsNew]
  by_cases hn : c.isNull = true
  · rw [if_pos ⟨hn, hn⟩]
  · rw [if_neg (by simp [hn]), if_neg (by simp [hn]), if_neg (by simp [hn]),
      if_neg (by simp)]
    by_cases hq : c.isNumeric = true
    · rw [if_pos ⟨hq, hq⟩]
      simp
    · rw [if_neg (by simp [hq]), if_neg (by simp [hq]), if_neg (by simp [hq])]
      simp [goStrLt_irrefl]

theorem compareMavenLists_self (l : List MavenComponent) :
    compareMavenLists l l = 0 := by
  induction l with
  | nil => rfl
  | cons c cs ih =>
    have hstep : compareMavenLists (c :: cs) (c :: cs)
        = (let x := compareMavenComponentsNew c c
           if x ≠ 0 then x else compareMavenLists cs cs) := rfl
    rw [hstep]
    simp [compareMavenComponentsNew_self, ih]

theorem parseMavenVersion_append_zero (s : Str)
    (hflags : ∀ q ∈ splitMavenVersionWithSeparators (s.map Char.toLower), q.2 = false)
    (hlast : ∀ lp, (splitMavenVersionWithSeparators (s.map Char.toLower)).getLast?
        = some lp → ¬ (lp.1 = ['a'] ∨ lp.1 = ['b'] ∨ lp.1 = ['m'])) :
    parseMavenVersion (s ++ ['.', '0']) = parseMavenVersion s := by
  have hmap : (s ++ ['.', '0']).map Char.toLower = s.map Char.toLower ++ ['.', '0'] := by
    simp [List.map_append]
  have hsp : splitMavenVersionWithSeparators (s.map Char.toLower ++ ['.', '0'])
      = splitMavenVersionWithSeparators (s.map Char.toLower) ++ [(['0'], false)] := by
    rw [splitMavenVersionWithSeparators, splitMavenVersionWithSeparators,
      mavenSplitLoop_append_zero]
  rw [parseMavenVersion, parseMavenVersion, hmap, hsp,
    mavenComponents_append_zero _ hlast]
  exact normalize_append_zero _
    (mavenComponents_afterDash _ hflags)

/-- C7 counterexample: appending `.0` can change a Maven comparison,
because the single-letter qualifier rule looks at the following token:
`1.a` has the unknown qualifier `a` (which ranks above `rc`), while
`1.a.0` expands `a` to `alpha` (which ranks below `rc`). -/
theorem C7_counterexample_single_letter :
    CompareWithScheme (("1.a.0").toList) (("1.rc").toList) (['m', 'a', 'v', 'e', 'n']) = -1 ∧
    CompareWithScheme (("1.a").toList) (("1.rc").toList) (['m', 'a', 'v', 'e', 'n']) = 1 := by
  refine ⟨by decide, by decide⟩

/-- C7 (amended): for a non-empty version string s whose Maven
tokenization has no sublist token and whose final token is not a
single-letter `a`/`b`/`m` (which would be re-qualified by the appended
numeric token), appending `.0` never changes the outcome of a Maven
comparison: the appended zero is stripped as a trailing null-equivalent
component.  Without those provisos the counterexamples `1.a` (qualifier
re-expansion) and `1-a` (a trailing zero after a sublist is kept and
outranks sublist components) change the result. -/
theorem C7_trailing_zero_maven :
    ∀ s t : Str, s ≠ [] →
      (∀ q ∈ splitMavenVersionWithSeparators (s.map Char.toLower), q.2 = false) →
      (∀ lp, (splitMavenVersionWithSeparators (s.map Char.toLower)).getLast? = some lp →
        ¬ (lp.1 = ['a'] ∨ lp.1 = ['b'] ∨ lp.1 = ['m'])) →
      CompareWithScheme (s ++ ['.', '0']) t (['m', 'a', 'v', 'e', 'n'])
        = CompareWithScheme s t (['m', 'a', 'v', 'e', 'n']) := by
  intro s t hs hflags hlast
  have hparse := parseMavenVersion_append_zero s hflags hlast
  have hs0 : s ++ ['.', '0'] ≠ [] := by simp
  have hneq : s ++ ['.', '0'] ≠ s := by
    intro h
    have := congrArg List.length h
    simp at this
  have cws : ∀ a b : Str, a ≠ b → a ≠ [] → b ≠ [] →
      CompareWithScheme a b (['m', 'a', 'v', 'e', 'n']) = compareMaven a b := by
    intro a b hab ha hb
    rw [CompareWithScheme, if_neg hab, if_neg ha, if_neg hb,
      if_neg (by decide), if_pos rfl]
  by_cases h1 : s ++ ['.', '0'] = t
  · have h2 : ¬ s = t := by
      intro he
      exact hneq (by rw [h1, ← he])
    have ht0 : t ≠ [] := by rw [← h1]; exact hs0
    rw [show CompareWithScheme (s ++ ['.', '0']) t (['m', 'a', 'v', 'e', 'n']) = 0 by
      rw [CompareWithScheme, if_pos h1]]
    rw [cws s t h2 hs ht0, ← h1, compareMaven, hparse, compareMavenLists_self]
  · by_cases h2 : s = t
    · rw [show CompareWithScheme s t (['m', 'a', 'v', 'e', 'n']) = 0 by
        rw [CompareWithScheme, if_pos h2]]
      rw [cws (s ++ ['.', '0']) t h1 hs0 (by rw [← h2]; exact hs)]
      rw [← h2, compareMaven, hparse, compareMavenLists_self]
    · by_cases hte : t = []
      · subst hte
        rw [show CompareWithScheme (s ++ ['.', '0']) [] (['m', 'a', 'v', 'e', 'n']) = 1 by
          rw [CompareWithScheme, if_neg h1, if_neg hs0, if_pos rfl]]
        rw [show CompareWithScheme s [] (['m', 'a', 'v', 'e', 'n']) = 1 by
          rw [CompareWithScheme, if_neg h2, if_neg hs, if_pos rfl]]
      · rw [cws (s ++ ['.', '0']) t h1 hs0 hte, cws s t h2 hs hte,
          compareMaven, compareMaven, hparse]

/-- Witness for C7: appending `.0` to `1.2` does not change its Maven
comparison against `1.5`. -/
theorem C7_trailing_zero_maven_witness :
    CompareWithScheme ((("1.2").toList) ++ ['.', '0']) (("1.5").toList)
        (['m', 'a', 'v', 'e', 'n'])
      = CompareWithScheme (("1.2").toList) (("1.5").toList) (['m', 'a', 'v', 'e', 'n']) :=
  C7_trailing_zero_maven (("1.2").toList) (("1.5").toList) (by decide)
    (by decide) (by decide)

theorem digitChar_isDigit (m : Nat) (h : m < 10) : (digitChar m).isDigit = true := by
  interval_cases m <;> decide

theorem digitVal_digitChar (m : Nat) (h : m < 10) : digitVal (digitChar m) = m := by
  interval_cases m <;> decide

theorem natDigits_all_digits (n : Nat) : ∀ c ∈ natDigits n, c.isDigit = true := by
  induction n using Nat.strong_induction_on with
  | _ n ih =>
    rw [natDigits]
    by_cases h : n = 0
    · simp [h]
    · rw [if_neg h]
      intro c hc
      rcases List.mem_append.1 hc with h1 | h2
      · exact ih (n / 10) (Nat.div_lt_self (Nat.pos_of_ne_zero h) (by omega)) c h1
      · rw [List.mem_singleton.1 h2]
        exact digitChar_isDigit _ (Nat.mod_lt _ (by omega))

theorem natDigits_foldl (n : Nat) :
    ∀ acc : Nat, (natDigits n).foldl (fun a c => a * 10 + digitVal c) acc
      = acc * 10 ^ (natDigits n).length + n := by
  induction n using Nat.strong_induction_on with
  | _ n ih =>
    intro acc
    rw [natDigits]
    by_cases h : n = 0
    · simp [h]
    · rw [if_neg h, List.foldl_append,
        ih (n / 10) (Nat.div_lt_self (Nat.pos_of_ne_zero h) (by omega))]
      simp only [List.foldl_cons, List.foldl_nil, List.length_append,
        List.length_cons, List.length_nil]
      rw [digitVal_digitChar _ (Nat.mod_lt _ (by omega)), pow_succ]
      have hdm : 10 * (n / 10) + n % 10 = n := Nat.div_add_mod n 10
      ring_nf
      omega

theorem natToStr_all_digits (n : Nat) : ∀ c ∈ natToStr n, c.isDigit = true := by
  rw [natToStr]
  by_cases h : n = 0
  · simp [h]
  · rw [if_neg h]
    exact natDigits_all_digits n

theorem natToStr_ne_nil (n : Nat) : natToStr n ≠ [] := by
  rw [natToStr]
  by_cases h : n = 0
  · simp [h]
  · rw [if_neg h, natDigits, if_neg h]
    simp

theorem parseDigits_natToStr (n : Nat) : parseDigits (natToStr n) = some n := by
  by_cases h : n = 0
  · rw [h]
    decide
  · rw [parseDigits,
      if_pos ⟨natToStr_ne_nil n, List.all_eq_true.2 (natToStr_all_digits n)⟩]
    rw [natToStr, if_neg h, natDigits_foldl]
    simp

theorem atoiQ_cons_other (c : Char) (rest : Str) (h1 : c ≠ '+') (h2 : c ≠ '-') :
    atoiQ (c :: rest) = (parseDigits (c :: rest)).map (fun n => (n : Int)) := by
  rw [atoiQ.eq_def]
  split <;> simp_all

theorem atoi_natToStr (n : Nat) : atoi (natToStr n) = (n : Int) := by
  have hall := natToStr_all_digits n
  have hne := natToStr_ne_nil n
  unfold atoi
  cases hs : natToStr n with
  | nil => exact absurd hs hne
  | cons c rest =>
    rw [hs] at hall
    have hc : c.isDigit = true := hall c (List.mem_cons_self c rest)
    have h1 : c ≠ '+' := by intro h; rw [h] at hc; exact absurd hc (by decide)
    have h2 : c ≠ '-' := by intro h; rw [h] at hc; exact absurd hc (by decide)
    rw [atoiQ_cons_other c rest h1 h2, ← hs, parseDigits_natToStr]
    simp

theorem atoi_neg_natToStr (n : Nat) : atoi ('-' :: natToStr n) = -(n : Int) := by
  have h : atoiQ ('-' :: natToStr n)
      = (parseDigits (natToStr n)).map (fun k => -(k : Int)) := rfl
  unfold atoi
  rw [h, parseDigits_natToStr]
  simp

theorem atoi_intToStr (i : Int) : atoi (intToStr i) = i := by
  unfold intToStr
  by_cases h : i < 0
  · rw [if_pos h, atoi_neg_natToStr]
    omega
  · rw [if_neg h, atoi_natToStr]
    omega

theorem natToStr_no_dot (n : Nat) : ('.' : Char) ∉ natToStr n :=
  fun h => absurd (natToStr_all_digits n _ h) (by decide)

theorem natToStr_no_dash (n : Nat) : ('-' : Char) ∉ natToStr n :=
  fun h => absurd (natToStr_all_digits n _ h) (by decide)

theorem goSplit_no_sep (sep : Char) (B : Str) (hB : sep ∉ B) : goSplit sep B = [B] := by
  induction B with
  | nil => rfl
  | cons c cs ih =>
    have hc : ¬ c = sep := fun h => hB (by rw [← h]; exact List.mem_cons_self c cs)
    have ih' : goSplit sep cs = [cs] := ih (fun h => hB (List.mem_cons_of_mem c h))
    rw [goSplit, if_neg hc, ih']

theorem goSplit_append (sep : Char) (A B : Str) (hA : sep ∉ A) :
    goSplit sep (A ++ sep :: B) = A :: goSplit sep B := by
  induction A with
  | nil => simp [goSplit]
  | cons c cs ih =>
    have hc : ¬ c = sep := fun h => hA (by rw [← h]; exact List.mem_cons_self c cs)
    have ih' := ih (fun h => hA (List.mem_cons_of_mem c h))
    rw [List.cons_append, goSplit, if_neg hc, ih']

theorem takeWhile_all (p : Char → Bool) (B : Str) (hB : ∀ c ∈ B, p c = true) :
    B.takeWhile p = B ∧ B.dropWhile p = [] := by
  induction B with
  | nil => exact ⟨rfl, rfl⟩
  | cons c cs ih =>
    have hc := hB c (List.mem_cons_self c cs)
    have ih' := ih (fun d hd => hB d (List.mem_cons_of_mem c hd))
    simp only [List.takeWhile_cons, List.dropWhile_cons, hc, if_true]
    exact ⟨by rw [ih'.1], ih'.2⟩

theorem semverMatch_pair (A B : Str) (hA : A ≠ []) (hAd : ∀ c ∈ A, c.isDigit = true)
    (hB : B ≠ []) (hBd : ∀ c ∈ B, c.isDigit = true) :
    semverMatch (A ++ '.' :: B) = some (A, B, [], [], []) := by
  have h1 := takeWhile_all_append Char.isDigit A B '.' hAd (by decide)
  have h2 := takeWhile_all Char.isDigit B hBd
  unfold semverMatch
  simp [h1.1, h1.2, h2.1, h2.2, hA, hB]

theorem semverMatch_neg (t : Str) : semverMatch ('-' :: t) = none := by
  unfold semverMatch
  simp [List.takeWhile_cons]

theorem parseVersion_pair (a : Int) (m : Nat) :
    ParseVersion (intToStr a ++ '.' :: natToStr m)
      = some { major := a, minor := (m : Int), patch := 0, prerelease := [], build := [],
               original := intToStr a ++ '.' :: natToStr m } := by
  by_cases h : a < 0
  · have hA : intToStr a = '-' :: natToStr a.natAbs := by rw [intToStr, if_pos h]
    rw [hA]
    have hs : ('-' :: natToStr a.natAbs) ++ '.' :: natToStr m
        = '-' :: (natToStr a.natAbs ++ '.' :: natToStr m) := rfl
    rw [hs]
    have hne : '-' :: (natToStr a.natAbs ++ '.' :: natToStr m) ≠ [] := by simp
    have hdot : ('.' : Char) ∈ '-' :: (natToStr a.natAbs ++ '.' :: natToStr m) := by simp
    have hnotall : ¬ ('-' :: (natToStr a.natAbs ++ '.' :: natToStr m)).all Char.isDigit
        = true := by
      intro hall
      exact absurd (List.all_eq_true.1 hall '-' (List.mem_cons_self _ _)) (by decide)
    have hcon : ('-' :: (natToStr a.natAbs ++ '.' :: natToStr m)).contains '.' = true := by
      simp
    have hAnd : ('.' : Char) ∉ '-' :: natToStr a.natAbs := by
      intro hh
      rcases List.mem_cons.1 hh with h1 | h2
      · exact absurd h1 (by decide)
      · exact natToStr_no_dot _ h2
    have hsplit : goSplit '.' ('-' :: (natToStr a.natAbs ++ '.' :: natToStr m))
        = ['-' :: natToStr a.natAbs, natToStr m] := by
      have := goSplit_append '.' ('-' :: natToStr a.natAbs) (natToStr m) hAnd
      rw [List.cons_append] at this
      rw [this, goSplit_no_sep '.' (natToStr m) (natToStr_no_dot m)]
    have hBnd : (natToStr m).contains '-' = false := by
      by_contra hcc
      have : (natToStr m).contains '-' = true := by
        revert hcc; cases (natToStr m).contains '-' <;> simp
      exact natToStr_no_dash m (by simpa using this)
    unfold ParseVersion
    rw [if_neg hne, if_neg hnotall, semverMatch_neg, hcon]
    simp only [if_true, hsplit]
    have hmaj : atoi ('-' :: natToStr a.natAbs) = a := by
      rw [atoi_neg_natToStr]
      omega
    simp [hmaj, atoi_natToStr, hBnd, natToStr_ne_nil]
    exact fun hh => absurd hh (natToStr_no_dash m)
  · have hA : intToStr a = natToStr a.toNat := by rw [intToStr, if_neg h]
    rw [hA]
    have hne : natToStr a.toNat ++ '.' :: natToStr m ≠ [] := by simp
    have hdot : ('.' : Char) ∈ natToStr a.toNat ++ '.' :: natToStr m := by simp
    have hnotall : ¬ (natToStr a.toNat ++ '.' :: natToStr m).all Char.isDigit = true := by
      intro hall
      exact absurd (List.all_eq_true.1 hall '.' hdot) (by decide)
    have hsm := semverMatch_pair (natToStr a.toNat) (natToStr m)
      (natToStr_ne_nil _) (natToStr_all_digits _) (natToStr_ne_nil _) (natToStr_all_digits _)
    unfold ParseVersion
    rw [if_neg hne, if_neg hnotall, hsm]
    have hmaj : atoi (natToStr a.toNat) = a := by
      rw [atoi_natToStr]
      omega
    simp [hmaj, atoi_natToStr, natToStr_ne_nil]

theorem atoi_nonneg (s : Str) (h : ('-' : Char) ∉ s) : 0 ≤ atoi s := by
  unfold atoi
  cases s with
  | nil => decide
  | cons c rest =>
    by_cases h1 : c = '+'
    · rw [h1]
      have he : atoiQ ('+' :: rest) = (parseDigits rest).map (fun n => (n : Int)) := rfl
      rw [he]
      cases hp : parseDigits rest with
      | none => simp
      | some k => simp
    · have h2 : c ≠ '-' := fun hh => h (by rw [hh]; exact List.mem_cons_self _ _)
      rw [atoiQ_cons_other c rest h1 h2]
      cases hp : parseDigits (c :: rest) with
      | none => simp
      | some k => simp

theorem semverMatch_d2 (s : Str) (r : Str × Str × Str × Str × Str)
    (h : semverMatch s = some r) : ∀ c ∈ r.2.1, c.isDigit = true := by
  unfold semverMatch at h
  simp only [] at h
  repeat' split at h
  all_goals first
    | (injection h with h
       rw [← h]
       intro c hc
       first
         | exact List.mem_takeWhile_imp hc
         | (simp at hc))
    | (simp at h)

theorem parseVersion_minor_nonneg (s : Str) (v : VersionInfo)
    (h : ParseVersion s = some v) : 0 ≤ v.minor := by
  unfold ParseVersion at h
  split at h
  · exact absurd h (by simp)
  · split at h
    · injection h with h
      rw [← h]
    · split at h
      case _ d1 d2 d3 pre bld heq =>
        injection h with h
        rw [← h]
        simp only []
        split
        case isTrue hd2 =>
          apply atoi_nonneg
          intro hmem
          exact absurd (semverMatch_d2 s _ heq '-' hmem) (by decide)
        case isFalse => exact le_refl 0
      case _ heq =>
        split at h
        · injection h with h
          rw [← h]
          simp only []
          split
          case isTrue hcond =>
            apply atoi_nonneg
            intro hmem
            exact hcond.2 (by simpa using hmem)
          case isFalse => exact le_refl 0
        · split at h
          · split at h
            · injection h with h
              rw [← h]
            · exact absurd h (by simp)
          · exact absurd h (by simp)

theorem dropWhile_fix_of_trim (X : Str) (ht : trimSpace X = X) :
    X.dropWhile isGoSpace = X ∧ X.reverse.dropWhile isGoSpace = X.reverse := by
  unfold trimSpace at ht
  have h1 : (X.dropWhile isGoSpace).Sublist X := List.dropWhile_sublist _
  have h2 : ((X.dropWhile isGoSpace).reverse.dropWhile isGoSpace).Sublist
      (X.dropWhile isGoSpace).reverse := List.dropWhile_sublist _
  have hlen : X.length = ((X.dropWhile isGoSpace).reverse.dropWhile isGoSpace).reverse.length := by
    rw [ht]
  rw [List.length_reverse] at hlen
  have hl2 := h2.length_le
  rw [List.length_reverse] at hl2
  have hl1 := h1.length_le
  have hfix : X.dropWhile isGoSpace = X := h1.eq_of_length (by omega)
  refine ⟨hfix, ?_⟩
  rw [hfix] at ht
  have := congrArg List.reverse ht
  rwa [List.reverse_reverse] at this

theorem trimSpace_space_cons (X : Str) (ht : trimSpace X = X) :
    trimSpace (' ' :: X) = X := by
  obtain ⟨h1, h2⟩ := dropWhile_fix_of_trim X ht
  unfold trimSpace
  rw [List.dropWhile_cons]
  simp only [show isGoSpace ' ' = true from by decide, if_true]
  rw [h1, h2, List.reverse_reverse]

theorem trimSpace_opspace (a b : Char) (X : Str) (ha : isGoSpace a = false)
    (ht : trimSpace X = X) (hne : X ≠ []) :
    trimSpace (a :: b :: ' ' :: X) = a :: b :: ' ' :: X := by
  obtain ⟨h1, h2⟩ := dropWhile_fix_of_trim X ht
  unfold trimSpace
  rw [List.dropWhile_cons]
  simp only [ha, Bool.false_eq_true, if_false]
  cases hXr : X.reverse with
  | nil =>
    exact absurd (by rw [← List.reverse_reverse X, hXr]; rfl) hne
  | cons c cs =>
    have hc : isGoSpace c = false := by
      rw [hXr] at h2
      by_contra hcc
      have hct : isGoSpace c = true := by
        revert hcc; cases isGoSpace c <;> simp
      rw [List.dropWhile_cons, hct] at h2
      simp only [if_true] at h2
      have hsub := (List.dropWhile_sublist (p := isGoSpace) (l := cs)).length_le
      rw [h2] at hsub
      simp at hsub
    have hrev : (a :: b :: ' ' :: X).reverse = c :: (cs ++ [' ', b, a]) := by
      simp [hXr]
    rw [hrev, List.dropWhile_cons]
    simp only [hc, Bool.false_eq_true, if_false]
    rw [← hrev, List.reverse_reverse]

theorem parsePessimisticRange_eq (X : Str) (v : VersionInfo)
    (hv : ParseVersion X = some v) :
    parsePessimisticRange X = some (NewRange [NewInterval X
      (if 3 ≤ X.count '.' + 1 then intToStr v.major ++ '.' :: intToStr (v.minor + 1)
       else intToStr (v.major + 1) ++ ['.', '0']) true false]) := by
  unfold parsePessimisticRange
  rw [hv]
  simp only []
  by_cases h3 : 3 ≤ X.count '.' + 1
  · rw [if_pos h3, if_pos h3]
  · rw [if_neg h3, if_neg h3, ite_self]

theorem parseGemRange_pessimistic (fuel : Nat) (X : Str)
    (ht : trimSpace X = X) (hne : X ≠ []) :
    parseGemRange (fuel + 1) ('~' :: '>' :: ' ' :: X) = parsePessimisticRange X := by
  rw [parseGemRange]
  rw [trimSpace_opspace '~' '>' X (by decide) ht hne]
  rw [show List.take 2 ('~' :: '>' :: ' ' :: X) = ['~', '>'] from rfl, if_pos rfl,
    show List.drop 2 ('~' :: '>' :: ' ' :: X) = ' ' :: X from rfl,
    trimSpace_space_cons X ht]

theorem parsePypiRange_pessimistic (X : Str) (ht : trimSpace X = X) (hne : X ≠ []) :
    parsePypiRange ('~' :: '=' :: ' ' :: X) = parsePessimisticRange X := by
  unfold parsePypiRange
  rw [trimSpace_opspace '~' '=' X (by decide) ht hne]
  simp only []
  rw [show List.take 2 ('~' :: '=' :: ' ' :: X) = ['~', '='] from rfl, if_pos rfl,
    show List.drop 2 ('~' :: '=' :: ' ' :: X) = ' ' :: X from rfl,
    trimSpace_space_cons X ht]

/-- C6: for the gem/rubygems pessimistic operator `~>` (and pypi's `~=`),
parsing `~> X` natively yields the single interval lower-bounded
inclusively at X and upper-bounded exclusively at a version U, where U
parses to the next-minor version of X (same major, minor bumped by one)
when X has at least three dot-separated segments and to the next-major
version (major bumped by one, minor zero) otherwise. -/
theorem C6_pessimistic_operator (X : Str) (v : VersionInfo)
    (hv : ParseVersion X = some v) (ht : trimSpace X = X) :
    ∃ U : Str,
      ParseNative ('~' :: '>' :: ' ' :: X) (['g', 'e', 'm'])
          = some (NewRange [NewInterval X U true false]) ∧
      ParseNative ('~' :: '>' :: ' ' :: X) (['r', 'u', 'b', 'y', 'g', 'e', 'm', 's'])
          = some (NewRange [NewInterval X U true false]) ∧
      ParseNative ('~' :: '=' :: ' ' :: X) (['p', 'y', 'p', 'i'])
          = some (NewRange [NewInterval X U true false]) ∧
      ParseVersion U = some
        { major := if 3 ≤ X.count '.' + 1 then v.major else v.major + 1
          minor := if 3 ≤ X.count '.' + 1 then v.minor + 1 else 0
          patch := 0, prerelease := [], build := [], original := U } := by
  have hne := parseVersion_ne_nil hv
  have hmin := parseVersion_minor_nonneg X v hv
  refine ⟨if 3 ≤ X.count '.' + 1 then intToStr v.major ++ '.' :: intToStr (v.minor + 1)
       else intToStr (v.major + 1) ++ ['.', '0'], ?_, ?_, ?_, ?_⟩
  · have hg : ParseNative ('~' :: '>' :: ' ' :: X) (['g', 'e', 'm'])
        = parseGemRange (('~' :: '>' :: ' ' :: X).length + 1) ('~' :: '>' :: ' ' :: X) := rfl
    rw [hg, parseGemRange_pessimistic _ X ht hne, parsePessimisticRange_eq X v hv]
  · have hg : ParseNative ('~' :: '>' :: ' ' :: X) (['r', 'u', 'b', 'y', 'g', 'e', 'm', 's'])
        = parseGemRange (('~' :: '>' :: ' ' :: X).length + 1) ('~' :: '>' :: ' ' :: X) := rfl
    rw [hg, parseGemRange_pessimistic _ X ht hne, parsePessimisticRange_eq X v hv]
  · have hp : ParseNative ('~' :: '=' :: ' ' :: X) (['p', 'y', 'p', 'i'])
        = parsePypiRange ('~' :: '=' :: ' ' :: X) := rfl
    rw [hp, parsePypiRange_pessimistic X ht hne, parsePessimisticRange_eq X v hv]
  · by_cases h3 : 3 ≤ X.count '.' + 1
    · simp only [h3, if_true]
      have hm : intToStr (v.minor + 1) = natToStr (v.minor + 1).toNat := by
        rw [intToStr, if_neg (by omega)]
      rw [hm, parseVersion_pair v.major (v.minor + 1).toNat]
      simp only [Option.some.injEq, VersionInfo.mk.injEq, true_and, and_true]
      omega
    · simp only [h3, if_false]
      rw [show (['.', '0'] : Str) = '.' :: natToStr 0 from rfl,
        parseVersion_pair (v.major + 1) 0]
      simp

/-- Witness for C6 at X = `1.2.3`: the pessimistic ranges exist with the
upper bound parsing to the next-minor version 1.3. -/
theorem C6_pessimistic_operator_witness :
    ParseVersion (("1.2.3").toList) = some
      { major := 1, minor := 2, patch := 3, prerelease := [], build := [],
        original := ("1.2.3").toList } ∧
    trimSpace (("1.2.3").toList) = ("1.2.3").toList ∧
    ∃ U : Str,
      ParseNative ('~' :: '>' :: ' ' :: ("1.2.3").toList) (['g', 'e', 'm'])
          = some (NewRange [NewInterval (("1.2.3").toList) U true false]) ∧
      ParseNative ('~' :: '>' :: ' ' :: ("1.2.3").toList)
          (['r', 'u', 'b', 'y', 'g', 'e', 'm', 's'])
          = some (NewRange [NewInterval (("1.2.3").toList) U true false]) ∧
      ParseNative ('~' :: '=' :: ' ' :: ("1.2.3").toList) (['p', 'y', 'p', 'i'])
          = some (NewRange [NewInterval (("1.2.3").toList) U true false]) ∧
      ParseVersion U = some
        { major := if 3 ≤ (("1.2.3").toList).count '.' + 1 then 1 else 1 + 1
          minor := if 3 ≤ (("1.2.3").toList).count '.' + 1 then 2 + 1 else 0
          patch := 0, prerelease := [], build := [], original := U } :=
  ⟨by decide, by decide,
    C6_pessimistic_operator (("1.2.3").toList)
      { major := 1, minor := 2, patch := 3, prerelease := [], build := [],
        original := ("1.2.3").toList } (by decide) (by decide)⟩

theorem cmp3_self (k : Int × Int × Int) : cmp3 k k = 0 := by
  unfold cmp3
  split_ifs <;> omega

theorem cmp3_neg_iff (a b : Int × Int × Int) : cmp3 a b < 0 ↔ lt3 a b := by
  unfold cmp3 lt3
  split_ifs <;> omega

theorem cmp3_pos_iff (a b : Int × Int × Int) : 0 < cmp3 a b ↔ lt3 b a := by
  unfold cmp3 lt3
  split_ifs <;> omega

theorem cmp3_nonneg_iff (a b : Int × Int × Int) : 0 ≤ cmp3 a b ↔ ¬ lt3 a b := by
  unfold cmp3 lt3
  split_ifs <;> omega

theorem cmp3_nonpos_iff (a b : Int × Int × Int) : cmp3 a b ≤ 0 ↔ ¬ lt3 b a := by
  unfold cmp3 lt3
  split_ifs <;> omega

theorem cmp3_zero_iff (a b : Int × Int × Int) :
    cmp3 a b = 0 ↔ (a.1 = b.1 ∧ a.2.1 = b.2.1 ∧ a.2.2 = b.2.2) := by
  unfold cmp3
  split_ifs <;> (try rw [false_iff]) <;> omega

theorem isReleaseStr_ne_nil (s : Str) (h : isReleaseStr s = true) : s ≠ [] := by
  unfold isReleaseStr at h
  cases hp : ParseVersion s with
  | none => rw [hp] at h; simp at h
  | some v => exact parseVersion_ne_nil hp

theorem relCmp (x y : Str) (hx : isReleaseStr x = true) (hy : isReleaseStr y = true) :
    CompareVersions x y = cmp3 (rkey x) (rkey y) := by
  unfold isReleaseStr at hx hy
  cases hpx : ParseVersion x with
  | none => rw [hpx] at hx; simp at hx
  | some px =>
    cases hpy : ParseVersion y with
    | none => rw [hpy] at hy; simp at hy
    | some py =>
      rw [hpx] at hx
      rw [hpy] at hy
      have hprex : px.prerelease = [] := by simpa using hx
      have hprey : py.prerelease = [] := by simpa using hy
      have hkx : rkey x = vkey px := by unfold rkey; rw [hpx]
      have hky : rkey y = vkey py := by unfold rkey; rw [hpy]
      rw [hkx, hky]
      unfold CompareVersions
      by_cases hxy : x = y
      · rw [if_pos hxy]
        have hpp : px = py := by
          have : ParseVersion x = ParseVersion y := by rw [hxy]
          rw [hpx, hpy] at this
          exact Option.some.inj this
        rw [hpp]
        exact (cmp3_self _).symm
      · rw [if_neg hxy, if_neg (parseVersion_ne_nil hpx), if_neg (parseVersion_ne_nil hpy),
          hpx, hpy]
        show px.compare py = cmp3 (vkey px) (vkey py)
        unfold VersionInfo.compare cmp3 vkey
        rw [hprex, hprey]
        simp

theorem contains_of_empty (i : Interval) (v : Str) (h : i.isEmpty = true) :
    i.contains v = false := by
  unfold Interval.contains
  rw [if_pos h]

theorem contains_destruct (i : Interval) (v : Str) (h : i.contains v = true) :
    i.isEmpty = false ∧ minOkB i.min i.minInclusive v = true ∧
      maxOkB i.max i.maxInclusive v = true := by
  unfold Interval.contains at h
  by_cases he : i.isEmpty = true
  · rw [if_pos he] at h
    exact absurd h (by simp)
  · rw [if_neg he] at h
    have hef : i.isEmpty = false := by revert he; cases i.isEmpty <;> simp
    refine ⟨hef, ?_, ?_⟩
    · by_cases hub : i.isUnbounded = true
      · have hm : i.min = [] := by
          unfold Interval.isUnbounded at hub
          have hmm : i.min = [] ∧ i.max = [] := by simpa using hub
          exact hmm.1
        unfold minOkB
        rw [if_neg (by simp [hm])]
      · rw [if_neg hub] at h
        rw [Bool.and_eq_true] at h
        exact h.1
    · by_cases hub : i.isUnbounded = true
      · have hm : i.max = [] := by
          unfold Interval.isUnbounded at hub
          have hmm : i.min = [] ∧ i.max = [] := by simpa using hub
          exact hmm.2
        unfold maxOkB
        rw [if_neg (by simp [hm])]
      · rw [if_neg hub] at h
        rw [Bool.and_eq_true] at h
        exact h.2

theorem contains_build (i : Interval) (v : Str) (hne : i.isEmpty = false)
    (h1 : minOkB i.min i.minInclusive v = true)
    (h2 : maxOkB i.max i.maxInclusive v = true) :
    i.contains v = true := by
  unfold Interval.contains
  rw [if_neg (by simp [hne])]
  by_cases hub : i.isUnbounded = true
  · rw [if_pos hub]
  · rw [if_neg hub]
    rw [Bool.and_eq_true]
    exact ⟨h1, h2⟩

theorem minOkB_nil (inc : Bool) (v : Str) : minOkB [] inc v = true := by
  unfold minOkB
  simp

theorem maxOkB_nil (inc : Bool) (v : Str) : maxOkB [] inc v = true := by
  unfold maxOkB
  simp

theorem minOkB_of_key (min v : Str) (inc : Bool) (kv km : Int × Int × Int)
    (hne : min ≠ []) (hc : CompareVersions v min = cmp3 kv km)
    (hge : ¬ lt3 kv km) (hstr : inc = false → lt3 km kv) :
    minOkB min inc v = true := by
  unfold minOkB
  rw [if_pos hne]
  simp only []
  rw [hc]
  cases inc
  · simp only [Bool.false_eq_true, if_false, decide_eq_true_eq]
    exact (cmp3_pos_iff _ _).2 (hstr rfl)
  · simp only [if_true, decide_eq_true_eq]
    exact (cmp3_nonneg_iff _ _).2 hge

theorem minOkB_elim (min v : Str) (inc : Bool) (kv km : Int × Int × Int)
    (hne : min ≠ []) (hc : CompareVersions v min = cmp3 kv km)
    (h : minOkB min inc v = true) :
    ¬ lt3 kv km ∧ (inc = false → lt3 km kv) := by
  unfold minOkB at h
  rw [if_pos hne] at h
  simp only [] at h
  rw [hc] at h
  cases inc
  · simp only [Bool.false_eq_true, if_false, decide_eq_true_eq] at h
    have hl : lt3 km kv := (cmp3_pos_iff _ _).1 h
    refine ⟨?_, fun _ => hl⟩
    unfold lt3 at *
    omega
  · simp only [if_true, decide_eq_true_eq] at h
    exact ⟨(cmp3_nonneg_iff _ _).1 h, fun hf => absurd hf (by decide)⟩

theorem maxOkB_of_key (max v : Str) (inc : Bool) (kv km : Int × Int × Int)
    (hne : max ≠ []) (hc : CompareVersions v max = cmp3 kv km)
    (hle : ¬ lt3 km kv) (hstr : inc = false → lt3 kv km) :
    maxOkB max inc v = true := by
  unfold maxOkB
  rw [if_pos hne]
  simp only []
  rw [hc]
  cases inc
  · simp only [Bool.false_eq_true, if_false, decide_eq_true_eq]
    exact (cmp3_neg_iff _ _).2 (hstr rfl)
  · simp only [if_true, decide_eq_true_eq]
    exact (cmp3_nonpos_iff _ _).2 hle

theorem maxOkB_elim (max v : Str) (inc : Bool) (kv km : Int × Int × Int)
    (hne : max ≠ []) (hc : CompareVersions v max = cmp3 kv km)
    (h : maxOkB max inc v = true) :
    ¬ lt3 km kv ∧ (inc = false → lt3 kv km) := by
  unfold maxOkB at h
  rw [if_pos hne] at h
  simp only [] at h
  rw [hc] at h
  cases inc
  · simp only [Bool.false_eq_true, if_false, decide_eq_true_eq] at h
    have hl : lt3 kv km := (cmp3_neg_iff _ _).1 h
    refine ⟨?_, fun _ => hl⟩
    unfold lt3 at *
    omega
  · simp only [if_true, decide_eq_true_eq] at h
    exact ⟨(cmp3_nonpos_iff _ _).1 h, fun hf => absurd hf (by decide)⟩

theorem contains_of_Oks (i : Interval) (v : Str)
    (hv : isReleaseStr v = true)
    (hminrel : i.min ≠ [] → isReleaseStr i.min = true)
    (hmaxrel : i.max ≠ [] → isReleaseStr i.max = true)
    (h1 : minOkB i.min i.minInclusive v = true)
    (h2 : maxOkB i.max i.maxInclusive v = true) :
    i.contains v = true := by
  have hne : i.isEmpty = false := by
    unfold Interval.isEmpty
    by_cases hb : i.min ≠ [] ∧ i.max ≠ []
    · rw [if_pos hb]
      simp only []
      have h1' := minOkB_elim i.min v i.minInclusive (rkey v) (rkey i.min) hb.1
        (relCmp v i.min hv (hminrel hb.1)) h1
      have h2' := maxOkB_elim i.max v i.maxInclusive (rkey v) (rkey i.max) hb.2
        (relCmp v i.max hv (hmaxrel hb.2)) h2
      rw [relCmp i.min i.max (hminrel hb.1) (hmaxrel hb.2)]
      split_ifs with hgt heq
      · exfalso
        have hl := (cmp3_pos_iff _ _).1 hgt
        have ha1 := h1'.1
        have ha2 := h2'.1
        unfold lt3 at *
        omega
      · exfalso
        have hk := (cmp3_zero_iff _ _).1 heq.1
        have hnand := heq.2
        cases hmi : i.minInclusive with
        | false =>
          have hstrict := h1'.2 hmi
          have ha2 := h2'.1
          unfold lt3 at *
          omega
        | true =>
          cases hma : i.maxInclusive with
          | false =>
            have hstrict := h2'.2 hma
            have ha1 := h1'.1
            unfold lt3 at *
            omega
          | true => exact hnand ⟨hmi, hma⟩
      · rfl
    · rw [if_neg hb]
  exact contains_build i v hne h1 h2

theorem union_newMin_ok (a b : Interval) (v : Str)
    (hca : a.min ≠ [] → CompareVersions v a.min = cmp3 (rkey v) (rkey a.min))
    (hcb : b.min ≠ [] → CompareVersions v b.min = cmp3 (rkey v) (rkey b.min))
    (hab : a.min ≠ [] → b.min ≠ [] →
      CompareVersions a.min b.min = cmp3 (rkey a.min) (rkey b.min))
    (hok : minOkB a.min a.minInclusive v = true ∨ minOkB b.min b.minInclusive v = true) :
    minOkB (if a.min = [] ∨ b.min = [] then (([] : Str), false)
            else if CompareVersions a.min b.min < 0 then (a.min, a.minInclusive)
            else if CompareVersions a.min b.min > 0 then (b.min, b.minInclusive)
            else (a.min, a.minInclusive ∨ b.minInclusive)).1
      (if a.min = [] ∨ b.min = [] then (([] : Str), false)
       else if CompareVersions a.min b.min < 0 then (a.min, a.minInclusive)
       else if CompareVersions a.min b.min > 0 then (b.min, b.minInclusive)
       else (a.min, a.minInclusive ∨ b.minInclusive)).2 v = true := by
  by_cases hn : a.min = [] ∨ b.min = []
  · rw [if_pos hn]
    exact minOkB_nil false v
  · have hna : a.min ≠ [] := fun h => hn (Or.inl h)
    have hnb : b.min ≠ [] := fun h => hn (Or.inr h)
    rw [if_neg hn]
    have habe := hab hna hnb
    by_cases h1 : CompareVersions a.min b.min < 0
    · rw [if_pos h1]
      simp only []
      rcases hok with h | h
      · exact h
      · have hb' := minOkB_elim b.min v b.minInclusive (rkey v) (rkey b.min) hnb (hcb hnb) h
        rw [habe] at h1
        have hltab := (cmp3_neg_iff _ _).1 h1
        refine minOkB_of_key a.min v a.minInclusive (rkey v) (rkey a.min) hna (hca hna) ?_ ?_
        · have := hb'.1
          unfold lt3 at *
          omega
        · intro _
          have := hb'.1
          unfold lt3 at *
          omega
    · by_cases h2 : CompareVersions a.min b.min > 0
      · rw [if_neg h1, if_pos h2]
        simp only []
        rcases hok with h | h
        · have ha' := minOkB_elim a.min v a.minInclusive (rkey v) (rkey a.min) hna (hca hna) h
          rw [habe] at h2
          have hltba := (cmp3_pos_iff _ _).1 h2
          refine minOkB_of_key b.min v b.minInclusive (rkey v) (rkey b.min) hnb (hcb hnb) ?_ ?_
          · have := ha'.1
            unfold lt3 at *
            omega
          · intro _
            have := ha'.1
            unfold lt3 at *
            omega
        · exact h
      · rw [if_neg h1, if_neg h2]
        simp only []
        have heq0 : cmp3 (rkey a.min) (rkey b.min) = 0 := by
          rw [← habe]
          omega
        have hk := (cmp3_zero_iff _ _).1 heq0
        rcases hok with h | h
        · have ha' := minOkB_elim a.min v a.minInclusive (rkey v) (rkey a.min) hna (hca hna) h
          refine minOkB_of_key a.min v _ (rkey v) (rkey a.min) hna (hca hna) ha'.1 ?_
          intro hincf
          have haf : a.minInclusive = false := by
            revert hincf
            cases a.minInclusive <;> cases b.minInclusive <;> simp
          exact ha'.2 haf
        · have hb' := minOkB_elim b.min v b.minInclusive (rkey v) (rkey b.min) hnb (hcb hnb) h
          refine minOkB_of_key a.min v _ (rkey v) (rkey a.min) hna (hca hna) ?_ ?_
          · have := hb'.1
            unfold lt3 at *
            omega
          · intro hincf
            have hbf : b.minInclusive = false := by
              revert hincf
              cases a.minInclusive <;> cases b.minInclusive <;> simp
            have := hb'.2 hbf
            unfold lt3 at *
            omega

theorem union_newMax_ok (a b : Interval) (v : Str)
    (hca : a.max ≠ [] → CompareVersions v a.max = cmp3 (rkey v) (rkey a.max))
    (hcb : b.max ≠ [] → CompareVersions v b.max = cmp3 (rkey v) (rkey b.max))
    (hab : a.max ≠ [] → b.max ≠ [] →
      CompareVersions a.max b.max = cmp3 (rkey a.max) (rkey b.max))
    (hok : maxOkB a.max a.maxInclusive v = true ∨ maxOkB b.max b.maxInclusive v = true) :
    maxOkB (if a.max = [] ∨ b.max = [] then (([] : Str), false)
            else if CompareVersions a.max b.max > 0 then (a.max, a.maxInclusive)
            else if CompareVersions a.max b.max < 0 then (b.max, b.maxInclusive)
            else (a.max, a.maxInclusive ∨ b.maxInclusive)).1
      (if a.max = [] ∨ b.max = [] then (([] : Str), false)
       else if CompareVersions a.max b.max > 0 then (a.max, a.maxInclusive)
       else if CompareVersions a.max b.max < 0 then (b.max, b.maxInclusive)
       else (a.max, a.maxInclusive ∨ b.maxInclusive)).2 v = true := by
  by_cases hn : a.max = [] ∨ b.max = []
  · rw [if_pos hn]
    exact maxOkB_nil false v
  · have hna : a.max ≠ [] := fun h => hn (Or.inl h)
    have hnb : b.max ≠ [] := fun h => hn (Or.inr h)
    rw [if_neg hn]
    have habe := hab hna hnb
    by_cases h1 : CompareVersions a.max b.max > 0
    · rw [if_pos h1]
      simp only []
      rcases hok with h | h
      · exact h
      · have hb' := maxOkB_elim b.max v b.maxInclusive (rkey v) (rkey b.max) hnb (hcb hnb) h
        rw [habe] at h1
        have hltba := (cmp3_pos_iff _ _).1 h1
        refine maxOkB_of_key a.max v a.maxInclusive (rkey v) (rkey a.max) hna (hca hna) ?_ ?_
        · have := hb'.1
          unfold lt3 at *
          omega
        · intro _
          have := hb'.1
          unfold lt3 at *
          omega
    · by_cases h2 : CompareVersions a.max b.max < 0
      · rw [if_neg h1, if_pos h2]
        simp only []
        rcases hok with h | h
        · have ha' := maxOkB_elim a.max v a.maxInclusive (rkey v) (rkey a.max) hna (hca hna) h
          rw [habe] at h2
          have hltab := (cmp3_neg_iff _ _).1 h2
          refine maxOkB_of_key b.max v b.maxInclusive (rkey v) (rkey b.max) hnb (hcb hnb) ?_ ?_
          · have := ha'.1
            unfold lt3 at *
            omega
          · intro _
            have := ha'.1
            unfold lt3 at *
            omega
        · exact h
      · rw [if_neg h1, if_neg h2]
        simp only []
        have heq0 : cmp3 (rkey a.max) (rkey b.max) = 0 := by
          rw [← habe]
          omega
        have hk := (cmp3_zero_iff _ _).1 heq0
        rcases hok with h | h
        · have ha' := maxOkB_elim a.max v a.maxInclusive (rkey v) (rkey a.max) hna (hca hna) h
          refine maxOkB_of_key a.max v _ (rkey v) (rkey a.max) hna (hca hna) ha'.1 ?_
          intro hincf
          have haf : a.maxInclusive = false := by
            revert hincf
            cases a.maxInclusive <;> cases b.maxInclusive <;> simp
          exact ha'.2 haf
        · have hb' := maxOkB_elim b.max v b.maxInclusive (rkey v) (rkey b.max) hnb (hcb hnb) h
          refine maxOkB_of_key a.max v _ (rkey v) (rkey a.max) hna (hca hna) ?_ ?_
          · have := hb'.1
            unfold lt3 at *
            omega
          · intro hincf
            have hbf : b.maxInclusive = false := by
              revert hincf
              cases a.maxInclusive <;> cases b.maxInclusive <;> simp
            have := hb'.2 hbf
            unfold lt3 at *
            omega

theorem union_newMin_release (a b : Interval)
    (hra : a.min ≠ [] → isReleaseStr a.min = true)
    (hrb : b.min ≠ [] → isReleaseStr b.min = true) :
    (if a.min = [] ∨ b.min = [] then (([] : Str), false)
     else if CompareVersions a.min b.min < 0 then (a.min, a.minInclusive)
     else if CompareVersions a.min b.min > 0 then (b.min, b.minInclusive)
     else (a.min, a.minInclusive ∨ b.minInclusive)).1 ≠ [] →
    isReleaseStr (if a.min = [] ∨ b.min = [] then (([] : Str), false)
     else if CompareVersions a.min b.min < 0 then (a.min, a.minInclusive)
     else if CompareVersions a.min b.min > 0 then (b.min, b.minInclusive)
     else (a.min, a.minInclusive ∨ b.minInclusive)).1 = true := by
  by_cases hn : a.min = [] ∨ b.min = []
  · rw [if_pos hn]
    intro h
    exact absurd rfl h
  · have hna : a.min ≠ [] := fun h => hn (Or.inl h)
    have hnb : b.min ≠ [] := fun h => hn (Or.inr h)
    rw [if_neg hn]
    by_cases h1 : CompareVersions a.min b.min < 0
    · rw [if_pos h1]
      exact fun _ => hra hna
    · by_cases h2 : CompareVersions a.min b.min > 0
      · rw [if_neg h1, if_pos h2]
        exact fun _ => hrb hnb
      · rw [if_neg h1, if_neg h2]
        exact fun _ => hra hna

theorem union_newMax_release (a b : Interval)
    (hra : a.max ≠ [] → isReleaseStr a.max = true)
    (hrb : b.max ≠ [] → isReleaseStr b.max = true) :
    (if a.max = [] ∨ b.max = [] then (([] : Str), false)
     else if CompareVersions a.max b.max > 0 then (a.max, a.maxInclusive)
     else if CompareVersions a.max b.max < 0 then (b.max, b.maxInclusive)
     else (a.max, a.maxInclusive ∨ b.maxInclusive)).1 ≠ [] →
    isReleaseStr (if a.max = [] ∨ b.max = [] then (([] : Str), false)
     else if CompareVersions a.max b.max > 0 then (a.max, a.maxInclusive)
     else if CompareVersions a.max b.max < 0 then (b.max, b.maxInclusive)
     else (a.max, a.maxInclusive ∨ b.maxInclusive)).1 = true := by
  by_cases hn : a.max = [] ∨ b.max = []
  · rw [if_pos hn]
    intro h
    exact absurd rfl h
  · have hna : a.max ≠ [] := fun h => hn (Or.inl h)
    have hnb : b.max ≠ [] := fun h => hn (Or.inr h)
    rw [if_neg hn]
    by_cases h1 : CompareVersions a.max b.max > 0
    · rw [if_pos h1]
      exact fun _ => hra hna
    · by_cases h2 : CompareVersions a.max b.max < 0
      · rw [if_neg h1, if_pos h2]
        exact fun _ => hrb hnb
      · rw [if_neg h1, if_neg h2]
        exact fun _ => hra hna

/-- C10 counterexample: merging the overlapping lower-bounded intervals with
minima `1.0.0-2` and `1.0.0-10` keeps only the bound `1.0.0-2`, yet the
version `1.0.0-1a` lies in the second operand and not in the merged
interval, because prerelease comparison is not transitive. -/
theorem C10_counterexample_union_drops_member :
    ((GreaterThanInterval (("1.0.0-2").toList) true).union
        (GreaterThanInterval (("1.0.0-10").toList) true)).map
      (fun m => m.contains (("1.0.0-1a").toList)) = some false ∧
    (GreaterThanInterval (("1.0.0-10").toList) true).contains (("1.0.0-1a").toList)
      = true := by
  decide

/-- C10 (amended): when every present bound of both intervals is a release
version and the contained version is a release version, a successful
`Interval.union` yields an interval containing every version contained in
either operand. -/
theorem C10_union_containment (a b m : Interval) (v : Str)
    (ha : releaseBounded a = true) (hb : releaseBounded b = true)
    (hv : isReleaseStr v = true)
    (hu : a.union b = some m)
    (hcv : a.contains v = true ∨ b.contains v = true) :
    m.contains v = true := by
  have haR : (a.min = [] ∨ isReleaseStr a.min = true) ∧
      (a.max = [] ∨ isReleaseStr a.max = true) := by
    simpa [releaseBounded] using ha
  have hbR : (b.min = [] ∨ isReleaseStr b.min = true) ∧
      (b.max = [] ∨ isReleaseStr b.max = true) := by
    simpa [releaseBounded] using hb
  have hra : a.min ≠ [] → isReleaseStr a.min = true := fun h => haR.1.resolve_left h
  have hrb : b.min ≠ [] → isReleaseStr b.min = true := fun h => hbR.1.resolve_left h
  have hraM : a.max ≠ [] → isReleaseStr a.max = true := fun h => haR.2.resolve_left h
  have hrbM : b.max ≠ [] → isReleaseStr b.max = true := fun h => hbR.2.resolve_left h
  unfold Interval.union at hu
  by_cases hae : a.isEmpty = true
  · rw [if_pos hae] at hu
    injection hu with hu
    rcases hcv with hav | hbv
    · rw [contains_of_empty a v hae] at hav
      exact absurd hav (by decide)
    · rw [← hu]
      exact hbv
  · rw [if_neg hae] at hu
    by_cases hbe : b.isEmpty = true
    · rw [if_pos hbe] at hu
      injection hu with hu
      rcases hcv with hav | hbv
      · rw [← hu]
        exact hav
      · rw [contains_of_empty b v hbe] at hbv
        exact absurd hbv (by decide)
    · rw [if_neg hbe] at hu
      by_cases hno : (¬ a.overlaps b = true ∧ ¬ a.adjacent b = true)
      · rw [if_pos hno] at hu
        cases hu
      · rw [if_neg hno] at hu
        simp only [] at hu
        injection hu with hu
        subst hu
        have hoks1 : minOkB a.min a.minInclusive v = true ∨
            minOkB b.min b.minInclusive v = true := by
          rcases hcv with h | h
          · exact Or.inl (contains_destruct a v h).2.1
          · exact Or.inr (contains_destruct b v h).2.1
        have hoks2 : maxOkB a.max a.maxInclusive v = true ∨
            maxOkB b.max b.maxInclusive v = true := by
          rcases hcv with h | h
          · exact Or.inl (contains_destruct a v h).2.2
          · exact Or.inr (contains_destruct b v h).2.2
        apply contains_of_Oks _ v hv
        · exact union_newMin_release a b hra hrb
        · exact union_newMax_release a b hraM hrbM
        · exact union_newMin_ok a b v (fun h => relCmp v a.min hv (hra h))
            (fun h => relCmp v b.min hv (hrb h))
            (fun h h' => relCmp a.min b.min (hra h) (hrb h')) hoks1
        · exact union_newMax_ok a b v (fun h => relCmp v a.max hv (hraM h))
            (fun h => relCmp v b.max hv (hrbM h))
            (fun h h' => relCmp a.max b.max (hraM h) (hrbM h')) hoks2

/-- Witness for C10: the release-bounded intervals [1.0.0, 2.0.0) and
[1.5.0, 3.0.0) merge into [1.0.0, 3.0.0), which contains the member
1.7.0 of the first operand. -/
theorem C10_union_containment_witness :
    releaseBounded (NewInterval (("1.0.0").toList) (("2.0.0").toList) true false) = true ∧
    releaseBounded (NewInterval (("1.5.0").toList) (("3.0.0").toList) true false) = true ∧
    isReleaseStr (("1.7.0").toList) = true ∧
    (NewInterval (("1.0.0").toList) (("2.0.0").toList) true false).union
        (NewInterval (("1.5.0").toList) (("3.0.0").toList) true false)
      = some (NewInterval (("1.0.0").toList) (("3.0.0").toList) true false) ∧
    (NewInterval (("1.0.0").toList) (("2.0.0").toList) true false).contains
        (("1.7.0").toList) = true ∧
    (NewInterval (("1.0.0").toList) (("3.0.0").toList) true false).contains
        (("1.7.0").toList) = true :=
  ⟨by decide, by decide, by decide, by decide, by decide,
    C10_union_containment
      (NewInterval (("1.0.0").toList) (("2.0.0").toList) true false)
      (NewInterval (("1.5.0").toList) (("3.0.0").toList) true false)
      (NewInterval (("1.0.0").toList) (("3.0.0").toList) true false)
      (("1.7.0").toList)
      (by decide) (by decide) (by decide) (by decide) (Or.inl (by decide))⟩

end Vers
